import Mathlib

/-!
Verification of the RPF6 archive container subsystem (`file_analyzer.py`) and the
RAGE binary mesh encoder (`rage_binary_core.py`) of the N8Gamez-Rage-Studio
repository.  Byte strings are modelled as `List Nat` (each produced byte < 256),
Python strings as `List Nat` of Unicode code points, and the DEFLATE codec as an
abstract pair `compress : List Nat → List Nat`, `inflate : List Nat → Option (List Nat)`
(`none` models `zlib.decompress` raising).
-/

namespace RageStudio

/-- A byte string. -/
abbrev Bytes := List Nat

/-- `((x + a - 1) // a) * a`: round `x` up to the next multiple of `a`. -/
def alignUp (x a : Nat) : Nat := (x + a - 1) / a * a

/-- Big-endian base-256 value of a byte chunk
    (`struct.unpack('>I', chunk)` on a 4-byte chunk). -/
def be_bytes_val (chunk : Bytes) : Nat := chunk.foldl (fun acc b => acc * 256 + b) 0

/-- The four bytes of `struct.pack('>I', v)` (defined for `v < 2^32`). -/
def u32be (v : Nat) : Bytes := [v / 2 ^ 24 % 256, v / 2 ^ 16 % 256, v / 2 ^ 8 % 256, v % 256]

/-- `struct.pack('>I', v)`: raises `struct.error` (modelled as `none`) when the
    value does not fit an unsigned 32-bit integer. -/
def packU32 (v : Nat) : Option Bytes := if v < 2 ^ 32 then some (u32be v) else none

/-- `struct.pack('>I', v)[1:4]`: the low three bytes of the big-endian encoding,
    used for the 3-byte data-offset TOC field.  The top byte is silently dropped. -/
def u24slice (v : Nat) : Bytes := [v / 2 ^ 16 % 256, v / 2 ^ 8 % 256, v % 256]

/-- Fallible form of `u24slice` (the underlying `struct.pack('>I', …)` raises
    for values ≥ 2^32). -/
def packU24slice (v : Nat) : Option Bytes := if v < 2 ^ 32 then some (u24slice v) else none

/-- `BigEndianEngine.read_uint32`: `struct.unpack('>I', data[offset:offset+4])`.
    Only invoked by the reader at offsets where four bytes are available. -/
def read_uint32 (data : Bytes) (off : Nat) : Nat := be_bytes_val ((data.drop off).take 4)

/-- The 3-byte data-offset read: `struct.unpack('>I', b'\x00' + entry_bytes[8:11])`. -/
def read_uint24 (data : Bytes) (off : Nat) : Nat := be_bytes_val ((data.drop off).take 3)

/-- `str.encode('ascii', errors='replace')` on a string of code points:
    non-ASCII code points are replaced by `ord('?') = 63`. -/
def encodeAscii (s : List Nat) : Bytes := s.map (fun c => if c < 128 then c else 63)

/-- `bytes.decode('ascii', errors='replace')`: bytes ≥ 128 decode to U+FFFD. -/
def decodeAscii (bs : Bytes) : List Nat := bs.map (fun b => if b < 128 then b else 0xFFFD)

/-- `AdvancedZLibCompressor.decompress(data, uncompressed_size)` with
    `zlib.decompress` modelled by `inflate` (`none` = the library raised, which
    the `except` clause turns into returning the input unchanged). -/
def decompress (inflate : Bytes → Option Bytes) (data : Bytes) (uncompressed_size : Nat) :
    Bytes :=
  if data = [] then data
  else
    match inflate data with
    | none => data
    | some decompressed =>
      if 0 < uncompressed_size then
        if decompressed.length < uncompressed_size then
          decompressed ++ List.replicate (uncompressed_size - decompressed.length) 0
        else if uncompressed_size < decompressed.length then
          decompressed.take uncompressed_size
        else decompressed
      else decompressed

end RageStudio

namespace RageBinary

open RageStudio (Bytes)

/-- `RAGEBinaryExporter._build_index_buffer` triangle-index accumulation: faces
    with exactly 3 vertices are emitted as-is, faces with exactly 4 vertices are
    emitted as the two triangles (0,1,2) and (0,2,3); any other face emits
    nothing (there is no branch for it in the source). -/
def build_triangles : List (List Nat) → List Nat
  | [] => []
  | face :: rest =>
    (if face.length = 3 then face
     else if face.length = 4 then
       [face.getD 0 0, face.getD 1 0, face.getD 2 0] ++
         [face.getD 0 0, face.getD 2 0, face.getD 3 0]
     else []) ++ build_triangles rest

/-- The fan decomposition (vertex 0, i, i+1) of a face, as described by the
    specification for every face with more than 3 vertices. -/
def fan_triangulation (face : List Nat) : List Nat :=
  (List.range (face.length - 2)).flatMap
    (fun i => [face.getD 0 0, face.getD (i + 1) 0, face.getD (i + 2) 0])

/-- 3-component vector of rational scalars (floats are modelled by ℚ; the claims
    at issue only involve exact negation and `1 - v`). -/
structure Vec3 where
  x : ℚ
  y : ℚ
  z : ℚ

structure Vec2 where
  u : ℚ
  v : ℚ

/-- A bmesh vertex as consumed by `_build_vertex_buffer`: coordinates, normal,
    and the UV looked up by `_get_vertex_uv`. -/
structure BMVert where
  co : Vec3
  normal : Vec3
  uv : Vec2

/-- `len(v)` for a `mathutils.Vector` is its component count, always 3 here. -/
def vec3_len (v : Vec3) : Nat := 3

/-- Python truthiness of `vert.normal`: `mathutils.Vector` defines no `__bool__`,
    so `bool(v)` falls back to `len(v) != 0`, which is always true for a
    3-component vector. -/
def vec3_truthy (v : Vec3) : Bool := vec3_len v != 0

/-- Names appearing in the vertex-format declarations of
    `_get_rdr1_format` / `_get_rdr2_format` / `_get_gtav_format`. -/
inductive VElem
  | position
  | normal
  | texcoord
  | color
  | bone_weights
  | bone_indices
  | tangent
  | blend_indices
deriving DecidableEq

/-- The per-element loop body of `_build_vertex_buffer` for one vertex.  `prev`
    models the Python local `data`, which keeps its previous value on elements
    whose name matches no branch (`tangent`, `blend_indices`); the three built-in
    declarations all begin with `position`, so `prev` is never read before being
    assigned.  Packed scalars are collected as rationals. -/
def pack_elements (vert : BMVert) : List VElem → List ℚ → List ℚ
  | [], _ => []
  | e :: rest, prev =>
    let data : List ℚ :=
      match e with
      | .position => [vert.co.x, vert.co.z, -vert.co.y]
      | .normal =>
        if vec3_truthy vert.normal then [vert.normal.x, vert.normal.z, -vert.normal.y]
        else [0, 1, 0]
      | .texcoord => [vert.uv.u, 1 - vert.uv.v]
      | .color => [255, 255, 255, 255]
      | .bone_weights => [1, 0, 0, 0]
      | .bone_indices => [0, 0, 0, 0]
      | _ => prev
    data ++ pack_elements vert rest data

/-- Element-name sequence of `_get_rdr1_format`. -/
def rdr1_declaration : List VElem := [.position, .normal, .texcoord, .color]

/-- Element-name sequence of `_get_rdr2_format`. -/
def rdr2_declaration : List VElem :=
  [.position, .normal, .texcoord, .color, .tangent, .blend_indices]

/-- Element-name sequence of `_get_gtav_format`. -/
def gtav_declaration : List VElem := [.position, .normal, .texcoord, .color]

/-- Scalars following position/normal/texcoord in one packed vertex: opaque-white
    color for all formats, repeated twice more for RDR2 whose `tangent` and
    `blend_indices` elements re-emit the stale `data` local. -/
def declaration_tail (decl : List VElem) : List ℚ :=
  if decl = rdr2_declaration then
    [255, 255, 255, 255] ++ [255, 255, 255, 255] ++ [255, 255, 255, 255]
  else [255, 255, 255, 255]

/-- Field kinds of the `struct` format string `'<4sIQQQQIIIIIIII'` used by
    `_build_rsc7_header`: a 4-byte string, little-endian u32, little-endian u64. -/
inductive PackField
  | s4
  | u32
  | u64
deriving DecidableEq

/-- Byte size contributed by each format field (`struct.calcsize`). -/
def field_size : PackField → Nat
  | .s4 => 4
  | .u32 => 4
  | .u64 => 8

/-- Values passed to `struct.pack`. -/
inductive PackVal
  | bytes (bs : Bytes)
  | int (n : Nat)
deriving DecidableEq

/-- Little-endian bytes. -/
def uNle (width v : Nat) : Bytes := (List.range width).map (fun i => v / 256 ^ i % 256)

/-- Packing a single field (value out of range or of the wrong kind raises). -/
def pack_field : PackField → PackVal → Option Bytes
  | .s4, .bytes bs => some (bs.take 4 ++ List.replicate (4 - bs.length) 0)
  | .u32, .int n => if n < 2 ^ 32 then some (uNle 4 n) else none
  | .u64, .int n => if n < 2 ^ 64 then some (uNle 8 n) else none
  | _, _ => none

/-- `struct.pack(fmt, *values)`: raises `struct.error` (modelled as `none`) when
    the number of values differs from the number of format fields. -/
def struct_pack (fmt : List PackField) (vals : List PackVal) : Option Bytes :=
  if fmt.length = vals.length then
    ((List.zipWith pack_field fmt vals).mapM id).map List.flatten
  else none

/-- `struct.calcsize(fmt)`. -/
def struct_calcsize (fmt : List PackField) : Nat := (fmt.map field_size).sum

/-- The format string `'<4sIQQQQIIIIIIII'` of `_build_rsc7_header`:
    `4s`, one `I`, four `Q`, then eight `I` — fourteen fields. -/
def rsc7_header_format : List PackField :=
  [.s4, .u32, .u64, .u64, .u64, .u64, .u32, .u32, .u32, .u32, .u32, .u32, .u32, .u32]

/-- Game profiles offered by the exporter. -/
inductive GameType
  | RDR1
  | RDR2
  | GTAV
deriving DecidableEq

/-- `version = 0x34 if game_type == 'GTAV' else 0x3D`. -/
def header_version (game_type : GameType) : Nat := if game_type = .GTAV then 0x34 else 0x3D

/-- `self.rsc7_magic = b'RSC7'`. -/
def rsc7_magic : Bytes := [0x52, 0x53, 0x43, 0x37]

/-- The fifteen values passed to `struct.pack` by `_build_rsc7_header`. -/
def rsc7_header_values (game_type : GameType) : List PackVal :=
  [.bytes rsc7_magic, .int (header_version game_type), .int 80, .int 0, .int 0, .int 0,
   .int 0, .int 2, .int 0, .int 0, .int 0, .int 0, .int 0, .int 0, .int 0]

/-- `RAGEBinaryExporter._build_rsc7_header`. -/
def build_rsc7_header (game_type : GameType) : Option Bytes :=
  struct_pack rsc7_header_format (rsc7_header_values game_type)

/-- `RAGEBinaryExporter.export_ydr` modelled at the header step: the segments are
    abstract byte blobs; the try/except wrapper converts any raised exception into
    a `False` return (modelled as `none`, with no file written).  The
    `_update_header_sizes` patch step is unreachable because the header build
    raises first. -/
def export_ydr (game_type : GameType) (system_segment graphics_segment : Bytes) :
    Option Bytes :=
  (build_rsc7_header game_type).map (fun header =>
    header ++ system_segment ++ graphics_segment)

end RageBinary

namespace RageStudio

/-! ## RPF6Writer -/

/-- An in-memory writer entry (`RPF6Entry` as used by `RPF6Writer`).  `file_data`
    models the dynamically-attached `_file_data` attribute: `none` when the
    attribute is absent (directory entries and entries carried over from a source
    archive by `RPF6Modifier`). -/
structure WEntry where
  name : List Nat
  data_size : Nat
  uncompressed_size : Nat
  is_compressed : Bool
  is_directory : Bool
  resource_type : Nat
  file_data : Option Bytes
deriving DecidableEq, Repr

/-- `RPF6Writer.add_file_data(file_data, archive_path, compress, …)`.  The zlib
    compressor is abstracted by `compress`. -/
def add_file_data (compress : Bytes → Bytes) (entries : List WEntry) (file_data : Bytes)
    (archive_path : List Nat) (doCompress : Bool) : List WEntry :=
  let stored := if doCompress then compress file_data else file_data
  entries ++ [{ name := archive_path
                data_size := stored.length
                uncompressed_size := file_data.length
                is_compressed := doCompress
                is_directory := false
                resource_type := 0
                file_data := some stored }]

/-- `RPF6Writer.add_directory(dir_path)`: canonicalizes the path to end with
    `'/'` (code point 47) and appends a directory entry with no payload. -/
def add_directory (entries : List WEntry) (dir_path : List Nat) : List WEntry :=
  let nm := if dir_path.getLast? = some 47 then dir_path else dir_path ++ [47]
  entries ++ [{ name := nm
                data_size := 0
                uncompressed_size := 0
                is_compressed := false
                is_directory := true
                resource_type := 0
                file_data := none }]

/-- `RPF6Writer.remove_entry(archive_path)`: drop every entry with that name. -/
def remove_entry (entries : List WEntry) (archive_path : List Nat) : List WEntry :=
  entries.filter (fun e => e.name != archive_path)

/-- One call against the writer accumulation API. -/
inductive WriterOp
  | file (data : Bytes) (path : List Nat) (doCompress : Bool)
  | dir (path : List Nat)

/-- The entry list of a fresh `RPF6Writer` after a sequence of
    `add_file_data` / `add_directory` calls. -/
def build_writer (compress : Bytes → Bytes) (ops : List WriterOp) : List WEntry :=
  ops.foldl
    (fun es op =>
      match op with
      | .file d p c => add_file_data compress es d p c
      | .dir p => add_directory es p)
    []

/-- Total (non-strict) lexicographic comparison of code-point strings, the order
    of Python `sorted` on `str`. -/
def lexLe : List Nat → List Nat → Bool
  | [], _ => true
  | _ :: _, [] => false
  | a :: as, b :: bs => if a < b then true else if b < a then false else lexLe as bs

/-- Sorting relation on entries used by `_build_name_table`
    (`sorted(self.entries, key=lambda x: x.name)`). -/
def wLe (a b : WEntry) : Prop := lexLe a.name b.name = true

instance : DecidableRel wLe := fun a b => by unfold wLe; infer_instance

/-- Python `sorted` is a stable sort; insertion sort with a non-strict total
    comparison computes the same list. -/
def sorted_entries (entries : List WEntry) : List WEntry := List.insertionSort wLe entries

/-- Python `dict` lookup on a name→offset association list. -/
def alookup (k : List Nat) : List (List Nat × Nat) → Option Nat
  | [] => none
  | (k', v) :: rest => if k = k' then some v else alookup k rest

/-- The loop of `_build_name_table` over the sorted names: names not yet in the
    map append their null-terminated ASCII encoding to the table and record the
    offset where that copy starts. -/
def name_table_fold : List (List Nat) → Bytes → List (List Nat × Nat) →
    Bytes × List (List Nat × Nat)
  | [], tbl, offs => (tbl, offs)
  | nm :: rest, tbl, offs =>
    match alookup nm offs with
    | some _ => name_table_fold rest tbl offs
    | none => name_table_fold rest (tbl ++ encodeAscii nm ++ [0]) (offs ++ [(nm, tbl.length)])

/-- `RPF6Writer._build_name_table`: the built name table together with the
    name→offset map. -/
def build_name_table (entries : List WEntry) : Bytes × List (List Nat × Nat) :=
  name_table_fold ((sorted_entries entries).map (fun e => e.name)) [] []

/-- The offset-assignment walk of `_calculate_data_offsets`: directories get 0,
    files get the running byte cursor, which then advances by the entry's
    2048-aligned data size. -/
def offsets_walk : List WEntry → Nat → List Nat
  | [], _ => []
  | e :: rest, cur =>
    if e.is_directory then 0 :: offsets_walk rest cur
    else cur :: offsets_walk rest (cur + alignUp e.data_size 2048)

/-- `RPF6Writer._calculate_data_offsets`. -/
def calc_data_offsets (entries : List WEntry) (names_size : Nat) : List Nat :=
  offsets_walk entries (alignUp (24 + entries.length * 16 + names_size) 2048)

/-- `RPF6Writer._estimate_archive_size` evaluated with the built name table. -/
def estimate_archive_size (entries : List WEntry) : Nat :=
  24 + entries.length * 16 + (build_name_table entries).1.length +
    ((entries.filter (fun e => !e.is_directory)).map
      (fun e => alignUp e.data_size 2048)).sum

/-- An entry as finalized inside `write_archive` (step "Update entries with
    calculated offsets"): TOC fields plus the carried payload for the data pass. -/
structure TocEntry where
  name_offset : Nat
  data_size : Nat
  data_offset : Nat
  flags : Nat
  uncompressed_size : Nat
  is_directory : Bool
  file_data : Option Bytes
deriving DecidableEq, Repr

/-- The flags byte rebuilt by `write_archive`:
    `0x80` compressed, `0x40` directory, low six bits the resource type. -/
def entry_flags (e : WEntry) : Nat :=
  (if e.is_compressed then 0x80 else 0) |||
    ((if e.is_directory then 0x40 else 0) ||| (e.resource_type &&& 0x3F))

/-- The per-entry finalization loop of `write_archive`: look the name offset up
    in the map from `_build_name_table` (a missing key would raise, caught as an
    overall failure), convert the byte offset to 2048-block units, and rebuild
    the flags byte.  `none` also covers the impossible offset-list length
    mismatch (an `IndexError` in Python). -/
def annotate : List WEntry → List Nat → List (List Nat × Nat) → Option (List TocEntry)
  | [], _, _ => some []
  | e :: rest, off :: offrest, offs => do
    let no ← alookup e.name offs
    let t ← annotate rest offrest offs
    return { name_offset := no
             data_size := e.data_size
             data_offset := off / 2048
             flags := entry_flags e
             uncompressed_size := e.uncompressed_size
             is_directory := e.is_directory
             file_data := e.file_data } :: t
  | _ :: _, [], _ => none

/-- The 16-byte TOC record written for one entry: name offset, data size, 3-byte
    data offset, flags byte, uncompressed size — all big-endian. -/
def toc_record (t : TocEntry) : Option Bytes := do
  let a ← packU32 t.name_offset
  let b ← packU32 t.data_size
  let c ← packU24slice t.data_offset
  let d ← packU32 t.uncompressed_size
  return a ++ b ++ (c ++ ([t.flags] ++ d))

/-- The 24-byte archive header: magic, tocSize, entryCount, namesLength,
    encryption, specialFlag (`RPF6Writer` always writes encryption 0 and the
    RDR1 PC signature). -/
def pack_header (entry_count names_length : Nat) : Option Bytes := do
  let a ← packU32 0x52504636
  let b ← packU32 (entry_count * 16)
  let c ← packU32 entry_count
  let d ← packU32 names_length
  let e ← packU32 0
  let f ← packU32 0x5253440A
  return a ++ b ++ (c ++ (d ++ (e ++ f)))

/-- The data pass of `write_archive`: entries that are not directories AND carry
    a `_file_data` attribute write their payload followed by zero padding to the
    next 2048 boundary of the file position; all other entries write nothing.
    `pos` is `f.tell()` at loop entry. -/
def write_data : List TocEntry → Nat → Bytes
  | [], _ => []
  | t :: rest, pos =>
    match t.is_directory, t.file_data with
    | false, some pd =>
      let written := pos + pd.length
      let pad := alignUp written 2048 - written
      pd ++ (List.replicate pad 0 ++ write_data rest (written + pad))
    | _, _ => write_data rest pos

/-- `RPF6Writer.write_archive` (also inherited unchanged by `RPF6Modifier`):
    build the name table, compute data offsets, finalize entries, then serialize
    header, TOC, name table, padding to 2048, and the data pass.  `none` models
    the `except` branch returning `False`. -/
def write_archive (entries : List WEntry) : Option Bytes := do
  let nt := build_name_table entries
  let data_offsets := calc_data_offsets entries nt.1.length
  let ann ← annotate entries data_offsets nt.2
  let header ← pack_header entries.length nt.1.length
  let toc ← ann.mapM toc_record
  let pre := header ++ (toc.flatten ++ nt.1)
  let body := pre ++ List.replicate (alignUp pre.length 2048 - pre.length) 0
  return body ++ write_data ann body.length

/-! ## RPF6Editor -/

/-- A parsed TOC entry (`RPF6Entry` as populated by `RPF6Editor`). -/
structure PEntry where
  index : Nat
  name_offset : Nat
  data_size : Nat
  data_offset : Nat
  flags : Nat
  uncompressed_size : Nat
  name : List Nat
  is_compressed : Bool
  is_directory : Bool
  resource_type : Nat
deriving DecidableEq, Repr

/-- Field extraction of `_parse_entries` from one 16-byte TOC record
    (`name` is resolved later by `_parse_name_table`). -/
def parse_entry_record (i : Nat) (chunk : Bytes) : PEntry :=
  let flags := chunk.getD 11 0
  { index := i
    name_offset := be_bytes_val (chunk.take 4)
    data_size := be_bytes_val ((chunk.drop 4).take 4)
    data_offset := be_bytes_val ((chunk.drop 8).take 3)
    flags := flags
    uncompressed_size := be_bytes_val ((chunk.drop 12).take 4)
    name := []
    is_compressed := flags &&& 0x80 != 0
    is_directory := flags &&& 0x40 != 0
    resource_type := flags &&& 0x3F }

/-- The record loop of `_parse_entries`: read 16 bytes at `24 + i*16` for each
    index below `entry_count`, stopping early on a short read. -/
def parse_entries_from (bs : Bytes) : Nat → Nat → List PEntry
  | 0, _ => []
  | c + 1, i =>
    let chunk := (bs.drop (24 + i * 16)).take 16
    if chunk.length < 16 then []
    else parse_entry_record i chunk :: parse_entries_from bs c (i + 1)

/-- `f'[Unnamed_{index}]'`, the placeholder for entries whose resolved name is
    empty. -/
def unnamed_name (i : Nat) : List Nat :=
  [91, 85, 110, 110, 97, 109, 101, 100, 95] ++
    ((Nat.repr i).data.map Char.toNat ++ [93])

/-- Name resolution of `_parse_name_table`: scan the name table from the entry's
    name offset up to the first zero byte, decode as ASCII with replacement, and
    fall back to the placeholder name when the scan is empty. -/
def resolve_name (table : Bytes) (e : PEntry) : PEntry :=
  let raw := (table.drop e.name_offset).takeWhile (fun b => b != 0)
  if raw = [] then { e with name := unnamed_name e.index }
  else { e with name := decodeAscii raw }

/-- The parsed state of an open `RPF6Editor`: the archive bytes (the reader
    re-reads the file for every extraction; `file_bytes.length` is
    `os.path.getsize`) and the resolved entries. -/
structure Archive where
  file_bytes : Bytes
  entries : List PEntry
  name_table : Bytes
deriving DecidableEq, Repr

inductive ParseError
  | tooSmall
  | badMagic
deriving DecidableEq, Repr

/-- `RPF6Editor.parse_rpf6_structure`: header validation, TOC parse, name-table
    parse and name resolution. -/
def parse_rpf6_structure (bs : Bytes) : Except ParseError Archive :=
  if bs.length < 24 then .error .tooSmall
  else if read_uint32 bs 0 ≠ 0x52504636 then .error .badMagic
  else
    let entry_count := read_uint32 bs 8
    let names_length := read_uint32 bs 12
    let table := (bs.drop (24 + entry_count * 16)).take names_length
    .ok { file_bytes := bs
          entries := (parse_entries_from bs entry_count 0).map (resolve_name table)
          name_table := table }

inductive ExtractError
  | notFound
  | outOfRange
deriving DecidableEq, Repr

/-- `RPF6Editor.extract_file(file_name)`: first non-directory entry with that
    exact name (else a not-found error), byte offset `data_offset * 2048`
    checked against the file size (else an out-of-range error), then a read of
    `data_size` bytes there, decompressed when the entry is compressed. -/
def extract_file (inflate : Bytes → Option Bytes) (a : Archive) (file_name : List Nat) :
    Except ExtractError Bytes :=
  match a.entries.find? (fun e => e.name == file_name && !e.is_directory) with
  | none => .error .notFound
  | some entry =>
    let actual := entry.data_offset * 2048
    if a.file_bytes.length ≤ actual then .error .outOfRange
    else
      let file_data := (a.file_bytes.drop actual).take entry.data_size
      if entry.is_compressed then
        .ok (decompress inflate file_data entry.uncompressed_size)
      else .ok file_data

/-! ## RPF6Modifier -/

/-- `RPF6Modifier.load_existing_archive`: every parsed source entry becomes a
    writer entry with the same metadata but, crucially, no `_file_data`
    attribute (payloads are meant to be pulled on demand). -/
def load_existing_archive (a : Archive) : List WEntry :=
  a.entries.map (fun e =>
    { name := e.name
      data_size := e.data_size
      uncompressed_size := e.uncompressed_size
      is_compressed := e.is_compressed
      is_directory := e.is_directory
      resource_type := e.resource_type
      file_data := none })

/-- `RPF6Modifier.replace_file_data(archive_path, new_data, compress)` with the
    compression decision already resolved (a `None` argument is resolved by the
    extension heuristic `_should_compress_file`; it yields `False` for
    extension-less paths such as the ones used below). -/
def replace_file_data (compress : Bytes → Bytes) (entries : List WEntry)
    (archive_path : List Nat) (new_data : Bytes) (doCompress : Bool) : List WEntry :=
  add_file_data compress (remove_entry entries archive_path) new_data archive_path doCompress

instance {ε α : Type} [DecidableEq ε] [DecidableEq α] : DecidableEq (Except ε α) :=
  fun x y =>
    match x, y with
    | .error a, .error b =>
      if h : a = b then .isTrue (congrArg Except.error h)
      else .isFalse (fun hc => h (Except.noConfusion hc id))
    | .ok a, .ok b =>
      if h : a = b then .isTrue (congrArg Except.ok h)
      else .isFalse (fun hc => h (Except.noConfusion hc id))
    | .error _, .ok _ => .isFalse (fun hc => Except.noConfusion hc)
    | .ok _, .error _ => .isFalse (fun hc => Except.noConfusion hc)

end RageStudio

/-! ## Theorems -/

namespace RageStudio

/-- C3: for every byte buffer and every positive expected uncompressed size, a
decompression that inflates to fewer bytes than expected is zero-padded to
exactly that length, one that inflates to more bytes is truncated to exactly
that length, and a failing inflation returns the input buffer unchanged instead
of raising.  (`zlib.decompress` fails on the empty buffer, which the code
short-circuits before inflating; `hempty` records that fact about `inflate`.) -/
theorem decompress_contract (inflate : Bytes → Option Bytes) (data : Bytes) (n : Nat)
    (hempty : inflate [] = none) (hn : 0 < n) :
    (∀ d, inflate data = some d →
      (d.length < n →
        decompress inflate data n = d ++ List.replicate (n - d.length) 0 ∧
          (decompress inflate data n).length = n) ∧
      (n < d.length →
        decompress inflate data n = d.take n ∧ (decompress inflate data n).length = n) ∧
      (d.length = n → decompress inflate data n = d)) ∧
    (inflate data = none → decompress inflate data n = data) := by
  by_cases hdata : data = []
  · subst hdata
    refine ⟨fun d hd => absurd (hempty ▸ hd) (by simp), fun _ => by simp [decompress]⟩
  · constructor
    · intro d hd
      refine ⟨fun hlt => ?_, fun hgt => ?_, fun heq => ?_⟩
      · have : decompress inflate data n = d ++ List.replicate (n - d.length) 0 := by
          simp only [decompress, if_neg hdata, hd, if_pos hn, if_pos hlt]
        refine ⟨this, ?_⟩
        rw [this]; simp; omega
      · have : decompress inflate data n = d.take n := by
          simp only [decompress, if_neg hdata, hd, if_pos hn]
          rw [if_neg (by omega), if_pos hgt]
        refine ⟨this, ?_⟩
        rw [this]; simp; omega
      · simp only [decompress, if_neg hdata, hd, if_pos hn]
        rw [if_neg (by omega), if_neg (by omega)]
    · intro hd
      simp only [decompress, if_neg hdata, hd]

/-- Concrete instance of `decompress_contract`: inflation that succeeds short
(zero-padded), succeeds long (truncated), or fails (input returned). -/
def inflate_witness : Bytes → Option Bytes
  | [5] => some [1, 2]
  | [6] => some [1, 2, 3, 4]
  | _ => none

theorem decompress_contract_witness :
    inflate_witness [] = none ∧ 0 < 3 ∧
      decompress inflate_witness [5] 3 = [1, 2, 0] ∧
      decompress inflate_witness [6] 3 = [1, 2, 3] ∧
      decompress inflate_witness [9] 3 = [9] := by
  refine ⟨rfl, by decide, ?_, ?_, ?_⟩
  · exact ((((decompress_contract inflate_witness [5] 3 rfl (by decide)).1
      [1, 2] rfl).1 (by decide)).1).trans (by decide)
  · exact ((((decompress_contract inflate_witness [6] 3 rfl (by decide)).1
      [1, 2, 3, 4] rfl).2.1 (by decide)).1).trans (by decide)
  · exact ((decompress_contract inflate_witness [9] 3 rfl (by decide)).2 rfl)

end RageStudio

namespace RageBinary

/-- `build_triangles` distributes over face-list concatenation. -/
theorem build_triangles_append (xs ys : List (List Nat)) :
    build_triangles (xs ++ ys) = build_triangles xs ++ build_triangles ys := by
  induction xs with
  | nil => rfl
  | cons f rest ih => simp [build_triangles, ih]

/-- C7 counterexample: a pentagon face is not emitted as a fan — the index
builder has no branch for faces with more than 4 vertices and emits nothing. -/
theorem fan_triangulation_counterexample :
    build_triangles [[0, 1, 2, 3, 4]] = [] ∧
      fan_triangulation [0, 1, 2, 3, 4] = [0, 1, 2, 0, 2, 3, 0, 3, 4] ∧
      build_triangles [[0, 1, 2, 3, 4]] ≠ fan_triangulation [0, 1, 2, 3, 4] := by
  decide

/-- C7 (amended): a face with exactly 4 vertices contributes exactly the two
triangles (v0,v1,v2) and (v0,v2,v3), in that order, to the index buffer; a face
with more than 4 vertices contributes nothing. -/
theorem quad_fan_triangulation (pre post : List (List Nat)) (face : List Nat) :
    (face.length = 4 →
      build_triangles (pre ++ face :: post) =
        build_triangles pre ++
          ([face.getD 0 0, face.getD 1 0, face.getD 2 0] ++
            [face.getD 0 0, face.getD 2 0, face.getD 3 0]) ++ build_triangles post) ∧
    (4 < face.length →
      build_triangles (pre ++ face :: post) = build_triangles pre ++ build_triangles post) := by
  constructor
  · intro h4
    rw [build_triangles_append]
    simp [build_triangles, h4]
  · intro h5
    rw [build_triangles_append]
    have h3 : face.length ≠ 3 := by omega
    have h4 : face.length ≠ 4 := by omega
    simp [build_triangles, if_neg h3, if_neg h4]

theorem quad_fan_triangulation_witness :
    ([0, 1, 2, 3] : List Nat).length = 4 ∧
      build_triangles [[0, 1, 2, 3], [5, 6, 7]] = [0, 1, 2, 0, 2, 3, 5, 6, 7] :=
  ⟨by decide,
    ((quad_fan_triangulation [] [[5, 6, 7]] [0, 1, 2, 3]).1 (by decide)).trans (by decide)⟩

/-- C8: for every vertex and every one of the three target vertex formats, the
packed position and normal are the remap (x, z, −y) of the input vectors and
the packed texture coordinate is (u, 1 − v), unconditionally. -/
theorem vertex_remap_and_uv_flip (decl : List VElem)
    (hdecl : decl ∈ [rdr1_declaration, rdr2_declaration, gtav_declaration])
    (vert : BMVert) :
    pack_elements vert decl [] =
      [vert.co.x, vert.co.z, -vert.co.y] ++
        ([vert.normal.x, vert.normal.z, -vert.normal.y] ++
          ([vert.uv.u, 1 - vert.uv.v] ++ declaration_tail decl)) := by
  have hcases : decl = rdr1_declaration ∨ decl = rdr2_declaration ∨ decl = gtav_declaration := by
    simpa using hdecl
  rcases hcases with h | h | h
  · subst h
    simp [pack_elements, rdr1_declaration, declaration_tail, vec3_truthy, vec3_len]
    rw [if_neg (by decide)]
  · subst h
    simp [pack_elements, rdr2_declaration, declaration_tail, vec3_truthy, vec3_len]
  · subst h
    simp [pack_elements, gtav_declaration, declaration_tail, vec3_truthy, vec3_len]
    rw [if_neg (by decide)]

theorem vertex_remap_and_uv_flip_witness :
    gtav_declaration ∈ [rdr1_declaration, rdr2_declaration, gtav_declaration] ∧
      pack_elements ⟨⟨1, 2, 3⟩, ⟨4, 5, 6⟩, ⟨7, 9⟩⟩ gtav_declaration [] =
        [(1 : ℚ), 3, -2] ++ ([(4 : ℚ), 6, -5] ++
          ([(7 : ℚ), 1 - 9] ++ declaration_tail gtav_declaration)) :=
  ⟨by decide, vertex_remap_and_uv_flip gtav_declaration (by decide) ⟨⟨1, 2, 3⟩, ⟨4, 5, 6⟩, ⟨7, 9⟩⟩⟩

open RageStudio (Bytes) in
/-- C9: the header builder never emits a header at all — the format string
`'<4sIQQQQIIIIIIII'` has fourteen fields but fifteen values are supplied, so
`struct.pack` raises and the export fails for every target; moreover the format
describes 72 bytes, not the 80 the rest of the exporter assumes. -/
theorem rsc7_header_pack_arity_bug (game_type : GameType)
    (system_segment graphics_segment : Bytes) :
    build_rsc7_header game_type = none ∧
      export_ydr game_type system_segment graphics_segment = none ∧
      rsc7_header_format.length = 14 ∧
      (rsc7_header_values game_type).length = 15 ∧
      struct_calcsize rsc7_header_format = 72 := by
  have h : build_rsc7_header game_type = none := rfl
  exact ⟨h, by simp [export_ydr, h], rfl, rfl, rfl⟩

end RageBinary

namespace RageStudio

/-- C6: extraction fails with a not-found error exactly when no non-directory
entry has the requested name; when such an entry exists (the first TOC match),
it fails with an out-of-range error exactly when dataOffset·2048 is at least
the archive file size, and otherwise returns the read of dataSize bytes at that
byte offset (decompressed when the entry is compressed). -/
theorem extract_file_error_conditions (inflate : Bytes → Option Bytes) (a : Archive)
    (file_name : List Nat) :
    (extract_file inflate a file_name = .error .notFound ↔
      ∀ e ∈ a.entries, e.name = file_name → e.is_directory = true) ∧
    ∀ e, a.entries.find? (fun e => e.name == file_name && !e.is_directory) = some e →
      (extract_file inflate a file_name = .error .outOfRange ↔
        a.file_bytes.length ≤ e.data_offset * 2048) ∧
      (e.data_offset * 2048 < a.file_bytes.length →
        extract_file inflate a file_name =
          .ok (if e.is_compressed then
                 decompress inflate
                   ((a.file_bytes.drop (e.data_offset * 2048)).take e.data_size)
                   e.uncompressed_size
               else (a.file_bytes.drop (e.data_offset * 2048)).take e.data_size)) := by
  cases hf : a.entries.find? (fun e => e.name == file_name && !e.is_directory) with
  | none =>
    have hx : extract_file inflate a file_name = .error .notFound := by
      simp [extract_file, hf]
    refine ⟨?_, fun e he => by simp at he⟩
    rw [hx]
    simp only [true_iff]
    intro e he hname
    have hne := List.find?_eq_none.mp hf e he
    simp only [Bool.and_eq_true, beq_iff_eq, Bool.not_eq_true', not_and, hname,
      true_implies] at hne
    simpa using hne
  | some e0 =>
    have hpred := List.find?_some hf
    have hmem := List.mem_of_find?_eq_some hf
    simp only [Bool.and_eq_true, beq_iff_eq, Bool.not_eq_true'] at hpred
    have hrhsF : ¬∀ e ∈ a.entries, e.name = file_name → e.is_directory = true := by
      intro hr
      have := hr e0 hmem hpred.1
      rw [this] at hpred
      exact Bool.true_eq_false.mp hpred.2
    by_cases hlen : a.file_bytes.length ≤ e0.data_offset * 2048
    · have hx : extract_file inflate a file_name = .error .outOfRange := by
        simp [extract_file, hf, if_pos hlen]
      refine ⟨iff_of_false (by rw [hx]; simp) hrhsF, fun e he => ?_⟩
      obtain rfl : e0 = e := Option.some.inj he
      exact ⟨iff_of_true hx hlen, fun hlt => absurd hlt (by omega)⟩
    · have hx : extract_file inflate a file_name =
          .ok (if e0.is_compressed then
                 decompress inflate
                   ((a.file_bytes.drop (e0.data_offset * 2048)).take e0.data_size)
                   e0.uncompressed_size
               else (a.file_bytes.drop (e0.data_offset * 2048)).take e0.data_size) := by
        simp only [extract_file, hf]
        rw [if_neg hlen, apply_ite Except.ok]
      refine ⟨iff_of_false (by rw [hx]; simp) hrhsF, fun e he => ?_⟩
      obtain rfl : e0 = e := Option.some.inj he
      exact ⟨iff_of_false (by rw [hx]; simp) hlen, fun _ => hx⟩

/-- Concrete archive for the C6 witness: one uncompressed entry named "a". -/
def c6_entry : PEntry :=
  { index := 0, name_offset := 0, data_size := 2, data_offset := 0, flags := 0,
    uncompressed_size := 2, name := [97], is_compressed := false,
    is_directory := false, resource_type := 0 }

def c6_archive : Archive :=
  { file_bytes := [9, 8, 7], entries := [c6_entry], name_table := [97, 0] }

theorem extract_file_error_conditions_witness :
    c6_archive.entries.find? (fun e => e.name == [97] && !e.is_directory) = some c6_entry ∧
      c6_entry.data_offset * 2048 < c6_archive.file_bytes.length ∧
      extract_file (fun _ => none) c6_archive [97] = .ok [9, 8] := by
  refine ⟨by decide, by decide, ?_⟩
  have h := (((extract_file_error_conditions (fun _ => none) c6_archive [97]).2
    c6_entry (by decide)).2 (by decide))
  exact h.trans (by decide)

end RageStudio

namespace RageStudio

/-! ### Arithmetic and byte-level lemmas -/

theorem alignUp_le (x : Nat) : x ≤ alignUp x 2048 := by
  unfold alignUp; omega

theorem alignUp_lt (x : Nat) : alignUp x 2048 < x + 2048 := by
  unfold alignUp; omega

theorem alignUp_mod (x : Nat) : alignUp x 2048 % 2048 = 0 := by
  unfold alignUp; omega

theorem alignUp_eq_self {x : Nat} (h : x % 2048 = 0) : alignUp x 2048 = x := by
  unfold alignUp; omega

theorem alignUp_add_left {a : Nat} (b : Nat) (h : a % 2048 = 0) :
    alignUp (a + b) 2048 = a + alignUp b 2048 := by
  unfold alignUp; omega

theorem alignUp_pos {x : Nat} (h : 0 < x) : 2048 ≤ alignUp x 2048 := by
  unfold alignUp; omega

theorem u32be_length (v : Nat) : (u32be v).length = 4 := rfl

theorem u24slice_length (v : Nat) : (u24slice v).length = 3 := rfl

theorem be_bytes_val_u32 {v : Nat} (h : v < 2 ^ 32) : be_bytes_val (u32be v) = v := by
  simp only [be_bytes_val, u32be, List.foldl]
  omega

theorem be_bytes_val_u24 {v : Nat} (h : v < 2 ^ 24) : be_bytes_val (u24slice v) = v := by
  simp only [be_bytes_val, u24slice, List.foldl]
  omega

theorem packU32_eq {v : Nat} (h : v < 2 ^ 32) : packU32 v = some (u32be v) := if_pos h

theorem packU24slice_eq {v : Nat} (h : v < 2 ^ 32) : packU24slice v = some (u24slice v) :=
  if_pos h

/-- Reading a packed u32 back at the offset where it was written. -/
theorem read_uint32_at (pre : Bytes) (v : Nat) (rest : Bytes) (off : Nat)
    (hoff : off = pre.length) (hv : v < 2 ^ 32) :
    read_uint32 (pre ++ (u32be v ++ rest)) off = v := by
  subst hoff
  unfold read_uint32
  rw [List.drop_left, List.take_append_of_le_length (by simp [u32be]),
    List.take_of_length_le (by simp [u32be]), be_bytes_val_u32 hv]

/-! ### Association-list lookup -/

theorem alookup_append (k : List Nat) (l₁ l₂ : List (List Nat × Nat)) :
    alookup k (l₁ ++ l₂) = ((alookup k l₁).orElse (fun _ => alookup k l₂)) := by
  induction l₁ with
  | nil => simp [alookup]
  | cons p rest ih =>
    by_cases h : k = p.1
    · simp [alookup, h]
    · simpa [alookup, h] using ih

theorem alookup_eq_none (k : List Nat) (l : List (List Nat × Nat)) :
    alookup k l = none ↔ k ∉ l.map Prod.fst := by
  induction l with
  | nil => simp [alookup]
  | cons p rest ih =>
    by_cases h : k = p.1
    · simp [alookup, h]
    · simp [alookup, h, ih]

theorem alookup_isSome_of_eq (k : List Nat) (l : List (List Nat × Nat)) (v : Nat)
    (h : alookup k l = some v) : (alookup k l).isSome := by simp [h]

/-! ### Name-table build invariants -/

/-- Invariant of the name-table fold: every recorded offset points at the
    null-terminated encoded copy of its name, entirely inside the table. -/
def table_inv (tbl : Bytes) (offs : List (List Nat × Nat)) : Prop :=
  ∀ nm off, alookup nm offs = some off →
    off + (encodeAscii nm).length + 1 ≤ tbl.length ∧
    (tbl.drop off).take ((encodeAscii nm).length + 1) = encodeAscii nm ++ [0]

theorem table_inv_extend {tbl : Bytes} {offs : List (List Nat × Nat)} (ext : Bytes)
    (h : table_inv tbl offs) : table_inv (tbl ++ ext) offs := by
  intro nm off hoff
  obtain ⟨hle, hslice⟩ := h nm off hoff
  constructor
  · simp only [List.length_append]; omega
  · rw [List.drop_append_of_le_length (by omega),
      List.take_append_of_le_length (by simp; omega), hslice]

theorem alookup_snoc (k nm : List Nat) (offs : List (List Nat × Nat)) (v : Nat) :
    alookup k (offs ++ [(nm, v)]) =
      match alookup k offs with
      | some w => some w
      | none => if k = nm then some v else none := by
  rw [alookup_append]
  cases alookup k offs <;> simp [Option.orElse, alookup]

theorem table_inv_push {tbl : Bytes} {offs : List (List Nat × Nat)} (nm : List Nat)
    (h : table_inv tbl offs) :
    table_inv (tbl ++ (encodeAscii nm ++ [0])) (offs ++ [(nm, tbl.length)]) := by
  intro nm' off hoff
  rw [alookup_snoc] at hoff
  cases hold : alookup nm' offs with
  | some w =>
    rw [hold] at hoff
    exact table_inv_extend _ h nm' off (by rw [hold, ← Option.some.inj hoff])
  | none =>
    rw [hold] at hoff
    by_cases hk : nm' = nm
    · subst hk
      rw [if_pos rfl] at hoff
      obtain rfl : tbl.length = off := Option.some.inj hoff
      refine ⟨by simp only [List.length_append, List.length_cons]; omega, ?_⟩
      rw [List.drop_left, List.take_of_length_le (by simp)]
    · rw [if_neg hk] at hoff
      cases hoff

theorem name_table_fold_cons_some {nm : List Nat} {offs : List (List Nat × Nat)} {v : Nat}
    (rest : List (List Nat)) (tbl : Bytes) (h : alookup nm offs = some v) :
    name_table_fold (nm :: rest) tbl offs = name_table_fold rest tbl offs := by
  conv_lhs => unfold name_table_fold
  rw [h]

theorem name_table_fold_cons_none {nm : List Nat} {offs : List (List Nat × Nat)}
    (rest : List (List Nat)) (tbl : Bytes) (h : alookup nm offs = none) :
    name_table_fold (nm :: rest) tbl offs =
      name_table_fold rest (tbl ++ encodeAscii nm ++ [0]) (offs ++ [(nm, tbl.length)]) := by
  conv_lhs => unfold name_table_fold
  rw [h]

theorem name_table_fold_inv (names : List (List Nat)) :
    ∀ tbl offs, table_inv tbl offs →
      table_inv (name_table_fold names tbl offs).1 (name_table_fold names tbl offs).2 := by
  induction names with
  | nil => intro tbl offs h; exact h
  | cons nm rest ih =>
    intro tbl offs h
    cases hl : alookup nm offs with
    | some v => rw [name_table_fold_cons_some rest tbl hl]; exact ih tbl offs h
    | none =>
      rw [name_table_fold_cons_none rest tbl hl]
      refine ih _ _ ?_
      rw [List.append_assoc]
      exact table_inv_push nm h

theorem name_table_fold_lookup_mono (names : List (List Nat)) :
    ∀ tbl offs k v, alookup k offs = some v →
      alookup k (name_table_fold names tbl offs).2 = some v := by
  induction names with
  | nil => intro tbl offs k v h; exact h
  | cons nm rest ih =>
    intro tbl offs k v h
    cases hl : alookup nm offs with
    | some w => rw [name_table_fold_cons_some rest tbl hl]; exact ih tbl offs k v h
    | none =>
      rw [name_table_fold_cons_none rest tbl hl]
      refine ih _ _ k v ?_
      rw [alookup_snoc, h]

theorem name_table_fold_mem (names : List (List Nat)) :
    ∀ tbl offs nm, nm ∈ names →
      ∃ v, alookup nm (name_table_fold names tbl offs).2 = some v := by
  induction names with
  | nil => intro tbl offs nm h; cases h
  | cons hd rest ih =>
    intro tbl offs nm hmem
    cases hl : alookup hd offs with
    | some v =>
      rw [name_table_fold_cons_some rest tbl hl]
      rcases List.mem_cons.mp hmem with rfl | hr
      · exact ⟨v, name_table_fold_lookup_mono rest tbl offs nm v hl⟩
      · exact ih tbl offs nm hr
    | none =>
      rw [name_table_fold_cons_none rest tbl hl]
      rcases List.mem_cons.mp hmem with rfl | hr
      · refine ⟨tbl.length, name_table_fold_lookup_mono rest _ _ nm tbl.length ?_⟩
        rw [alookup_snoc, hl, if_pos rfl]
      · exact ih _ _ nm hr

theorem name_table_fold_lookup_none (names : List (List Nat)) :
    ∀ tbl offs k, k ∉ names → alookup k offs = none →
      alookup k (name_table_fold names tbl offs).2 = none := by
  induction names with
  | nil => intro tbl offs k _ h; exact h
  | cons nm rest ih =>
    intro tbl offs k hk h
    cases hl : alookup nm offs with
    | some w =>
      rw [name_table_fold_cons_some rest tbl hl]
      exact ih tbl offs k (fun hc => hk (List.mem_cons_of_mem nm hc)) h
    | none =>
      rw [name_table_fold_cons_none rest tbl hl]
      refine ih _ _ k (fun hc => hk (List.mem_cons_of_mem nm hc)) ?_
      rw [alookup_snoc, h]
      exact if_neg (fun hc => hk (by rw [hc]; exact List.mem_cons_self nm rest))

/-- Structure invariant for the C5 claim: the table is the concatenation of the
    null-terminated encodings of the recorded keys, each key recorded once. -/
def table_struct (tbl : Bytes) (offs : List (List Nat × Nat)) : Prop :=
  tbl = (offs.map Prod.fst).flatMap (fun nm => encodeAscii nm ++ [0]) ∧
    (offs.map Prod.fst).Nodup

theorem name_table_fold_struct (names : List (List Nat)) :
    ∀ tbl offs, table_struct tbl offs →
      table_struct (name_table_fold names tbl offs).1 (name_table_fold names tbl offs).2 := by
  induction names with
  | nil => intro tbl offs h; exact h
  | cons nm rest ih =>
    intro tbl offs h
    cases hl : alookup nm offs with
    | some v => rw [name_table_fold_cons_some rest tbl hl]; exact ih tbl offs h
    | none =>
      rw [name_table_fold_cons_none rest tbl hl]
      refine ih _ _ ⟨?_, ?_⟩
      · rw [h.1]
        simp [List.flatMap_append, List.flatMap]
      · rw [List.map_append]
        simp only [List.map_cons, List.map_nil]
        refine List.Nodup.append h.2 (List.nodup_singleton nm) ?_
        intro x hx hx2
        rw [List.mem_singleton.mp hx2] at hx
        exact ((alookup_eq_none nm offs).mp hl) hx

theorem name_table_fold_keys (names : List (List Nat)) (tbl : Bytes)
    (offs : List (List Nat × Nat)) (k : List Nat) :
    k ∈ (name_table_fold names tbl offs).2.map Prod.fst ↔
      k ∈ offs.map Prod.fst ∨ k ∈ names := by
  constructor
  · intro hmem
    by_contra hc
    push_neg at hc
    have hnone : alookup k offs = none := (alookup_eq_none k offs).mpr hc.1
    have := name_table_fold_lookup_none names tbl offs k hc.2 hnone
    exact ((alookup_eq_none k _).mp this) hmem
  · rintro (h | h)
    · cases hl : alookup k offs with
      | none => exact absurd h ((alookup_eq_none k offs).mp hl)
      | some v =>
        have := name_table_fold_lookup_mono names tbl offs k v hl
        by_contra hc
        rw [(alookup_eq_none k _).mpr hc] at this
        cases this
    · obtain ⟨v, hv⟩ := name_table_fold_mem names tbl offs k h
      by_contra hc
      rw [(alookup_eq_none k _).mpr hc] at hv
      cases hv

theorem build_name_table_inv (es : List WEntry) :
    table_inv (build_name_table es).1 (build_name_table es).2 :=
  name_table_fold_inv _ [] [] (fun nm off h => by cases h)

theorem build_name_table_struct (es : List WEntry) :
    table_struct (build_name_table es).1 (build_name_table es).2 :=
  name_table_fold_struct _ [] [] ⟨rfl, List.nodup_nil⟩

theorem mem_sorted_names (es : List WEntry) (nm : List Nat) :
    nm ∈ (sorted_entries es).map (fun e => e.name) ↔ nm ∈ es.map (fun e => e.name) := by
  unfold sorted_entries
  constructor
  · intro h
    obtain ⟨e, he, rfl⟩ := List.mem_map.mp h
    exact List.mem_map_of_mem _ ((List.mem_insertionSort wLe).mp he)
  · intro h
    obtain ⟨e, he, rfl⟩ := List.mem_map.mp h
    exact List.mem_map_of_mem _ ((List.mem_insertionSort wLe).mpr he)

theorem build_name_table_lookup (es : List WEntry) (e : WEntry) (he : e ∈ es) :
    ∃ v, alookup e.name (build_name_table es).2 = some v :=
  name_table_fold_mem _ [] [] e.name
    ((mem_sorted_names es e.name).mpr (List.mem_map_of_mem _ he))

theorem build_name_table_keys (es : List WEntry) (k : List Nat) :
    k ∈ (build_name_table es).2.map Prod.fst ↔ k ∈ es.map (fun e => e.name) := by
  unfold build_name_table
  rw [name_table_fold_keys]
  simp [mem_sorted_names es k]

/-! ### Data layout -/

/-- Aggregate byte size of the data section: one 2048-aligned block per
    non-directory entry. -/
def sum_aligned (es : List WEntry) : Nat :=
  ((es.filter (fun e => !e.is_directory)).map (fun e => alignUp e.data_size 2048)).sum

/-- Shape of writer states reachable through the `RPF6Writer` accumulation API:
    files carry their stored payload (of exactly `data_size` bytes), directories
    carry no payload and no sizes. -/
def entries_payload_ok (es : List WEntry) : Prop :=
  ∀ e ∈ es,
    if e.is_directory then e.file_data = none ∧ e.data_size = 0 ∧ e.uncompressed_size = 0
    else ∃ pd, e.file_data = some pd ∧ pd.length = e.data_size

theorem build_writer_payload_ok (compress : Bytes → Bytes) (ops : List WriterOp) :
    entries_payload_ok (build_writer compress ops) := by
  suffices h : ∀ es, entries_payload_ok es → entries_payload_ok
      (ops.foldl (fun es op =>
        match op with
        | .file d p c => add_file_data compress es d p c
        | .dir p => add_directory es p) es) by
    exact h [] (fun e he => by cases he)
  induction ops with
  | nil => intro es h; exact h
  | cons op rest ih =>
    intro es h
    refine ih _ ?_
    cases op with
    | file d p c =>
      intro e he
      rcases List.mem_append.mp he with he | he
      · exact h e he
      · obtain rfl : e = _ := List.mem_singleton.mp he
        simp [add_file_data]
    | dir p =>
      intro e he
      rcases List.mem_append.mp he with he | he
      · exact h e he
      · obtain rfl : e = _ := List.mem_singleton.mp he
        simp [add_directory]

theorem build_writer_resource_type (compress : Bytes → Bytes) (ops : List WriterOp) :
    ∀ e ∈ build_writer compress ops, e.resource_type = 0 := by
  suffices h : ∀ es, (∀ e ∈ es, e.resource_type = 0) →
      ∀ e ∈ ops.foldl (fun es op =>
        match op with
        | .file d p c => add_file_data compress es d p c
        | .dir p => add_directory es p) es, e.resource_type = 0 by
    exact h [] (fun e he => by cases he)
  induction ops with
  | nil => intro es h; exact h
  | cons op rest ih =>
    intro es h
    refine ih _ ?_
    cases op with
    | file d p c =>
      intro e he
      rcases List.mem_append.mp he with he | he
      · exact h e he
      · obtain rfl : e = _ := List.mem_singleton.mp he; rfl
    | dir p =>
      intro e he
      rcases List.mem_append.mp he with he | he
      · exact h e he
      · obtain rfl : e = _ := List.mem_singleton.mp he; rfl

theorem offsets_walk_length (es : List WEntry) : ∀ cur, (offsets_walk es cur).length = es.length := by
  induction es with
  | nil => intro cur; rfl
  | cons e rest ih =>
    intro cur
    unfold offsets_walk
    by_cases h : e.is_directory <;> simp [h, ih]

/-- The TOC entry finalized for one writer entry, given the name-offset map and
    the entry's computed byte offset. -/
def toc_of (offs : List (List Nat × Nat)) (e : WEntry) (off : Nat) : TocEntry :=
  { name_offset := (alookup e.name offs).getD 0
    data_size := e.data_size
    data_offset := off / 2048
    flags := entry_flags e
    uncompressed_size := e.uncompressed_size
    is_directory := e.is_directory
    file_data := e.file_data }

theorem annotate_eq (offs : List (List Nat × Nat)) :
    ∀ (es : List WEntry) (offsets : List Nat),
      (∀ e ∈ es, (alookup e.name offs).isSome) → offsets.length = es.length →
      annotate es offsets offs = some (List.zipWith (toc_of offs) es offsets) := by
  intro es
  induction es with
  | nil =>
    intro offsets _ hlen
    obtain rfl : offsets = [] := List.length_eq_zero.mp hlen
    rfl
  | cons e rest ih =>
    intro offsets hl hlen
    cases offsets with
    | nil => cases hlen
    | cons off offrest =>
      have he : (alookup e.name offs).isSome := hl e (List.mem_cons_self e rest)
      obtain ⟨v, hv⟩ := Option.isSome_iff_exists.mp he
      have hr := ih offrest (fun x hx => hl x (List.mem_cons_of_mem e hx))
        (by simpa using hlen)
      unfold annotate
      rw [hv, hr]
      simp [toc_of, hv]

theorem drop_append_ge (a b : Bytes) (n : Nat) (h : a.length ≤ n) :
    (a ++ b).drop n = b.drop (n - a.length) := by
  obtain ⟨m, rfl⟩ : ∃ m, n = a.length + m := ⟨n - a.length, by omega⟩
  rw [List.drop_append m]
  congr 1
  omega

theorem write_data_cons_skip {t : TocEntry} (ts : List TocEntry) (pos : Nat)
    (h : t.is_directory = true ∨ t.file_data = none) :
    write_data (t :: ts) pos = write_data ts pos := by
  conv_lhs => unfold write_data
  rcases h with h | h
  · rw [h]
  · rw [h]
    cases t.is_directory <;> rfl

theorem write_data_cons_payload {t : TocEntry} {pd : Bytes} (ts : List TocEntry) (pos : Nat)
    (hd : t.is_directory = false) (hp : t.file_data = some pd) :
    write_data (t :: ts) pos =
      pd ++ (List.replicate (alignUp (pos + pd.length) 2048 - (pos + pd.length)) 0 ++
        write_data ts (pos + pd.length +
          (alignUp (pos + pd.length) 2048 - (pos + pd.length)))) := by
  conv_lhs => unfold write_data
  rw [hd, hp]

theorem sum_aligned_cons_dir {e : WEntry} (rest : List WEntry) (h : e.is_directory = true) :
    sum_aligned (e :: rest) = sum_aligned rest := by
  simp [sum_aligned, List.filter, h]

theorem sum_aligned_cons_file {e : WEntry} (rest : List WEntry) (h : e.is_directory = false) :
    sum_aligned (e :: rest) = alignUp e.data_size 2048 + sum_aligned rest := by
  simp [sum_aligned, List.filter, h]

/-- The central layout lemma for the data section: the data pass writes exactly
    `sum_aligned` bytes, and each non-directory entry's payload appears at its
    walk-assigned offset. -/
theorem data_section_layout (offs : List (List Nat × Nat)) (es : List WEntry) :
    ∀ cur : Nat, cur % 2048 = 0 → entries_payload_ok es →
      (write_data (List.zipWith (toc_of offs) es (offsets_walk es cur)) cur).length
          = sum_aligned es ∧
      ∀ i e, es.get? i = some e → e.is_directory = false →
        ∃ off pd, (offsets_walk es cur).get? i = some off ∧ e.file_data = some pd ∧
          cur ≤ off ∧ off % 2048 = 0 ∧
          off + alignUp e.data_size 2048 ≤ cur + sum_aligned es ∧
          ∃ tail,
            (write_data (List.zipWith (toc_of offs) es (offsets_walk es cur)) cur).drop
                (off - cur) = pd ++ tail := by
  induction es with
  | nil =>
    intro cur _ _
    exact ⟨rfl, fun i e hi => by cases hi⟩
  | cons e rest ih =>
    intro cur hcur hok
    have hok_rest : entries_payload_ok rest := fun x hx => hok x (List.mem_cons_of_mem e hx)
    have hok_e := hok e (List.mem_cons_self e rest)
    cases hd : e.is_directory with
    | true =>
      rw [hd] at hok_e
      simp only [if_true] at hok_e
      have hwalk : offsets_walk (e :: rest) cur = 0 :: offsets_walk rest cur := by
        conv_lhs => unfold offsets_walk
        rw [if_pos hd]
      have hzip : List.zipWith (toc_of offs) (e :: rest) (offsets_walk (e :: rest) cur) =
          toc_of offs e 0 :: List.zipWith (toc_of offs) rest (offsets_walk rest cur) := by
        rw [hwalk]
        rfl
      have hskip : write_data (toc_of offs e 0 ::
            List.zipWith (toc_of offs) rest (offsets_walk rest cur)) cur =
          write_data (List.zipWith (toc_of offs) rest (offsets_walk rest cur)) cur :=
        write_data_cons_skip _ cur (Or.inr (by simp [toc_of, hok_e.1]))
      obtain ⟨ihlen, ihslice⟩ := ih cur hcur hok_rest
      rw [hzip, hskip, sum_aligned_cons_dir rest hd]
      refine ⟨ihlen, fun i e' hi hdir => ?_⟩
      cases i with
      | zero =>
        obtain rfl : e = e' := Option.some.inj hi
        rw [hd] at hdir
        cases hdir
      | succ j =>
        obtain ⟨off, pd, h1, h2, h3, h4, h5, h6⟩ := ihslice j e' hi hdir
        exact ⟨off, pd, by rw [hwalk]; simpa using h1, h2, h3, h4, h5, h6⟩
    | false =>
      rw [hd] at hok_e
      simp only [Bool.false_eq_true, if_false] at hok_e
      obtain ⟨pd, hpd, hpdlen⟩ := hok_e
      have hwalk : offsets_walk (e :: rest) cur =
          cur :: offsets_walk rest (cur + alignUp e.data_size 2048) := by
        conv_lhs => unfold offsets_walk
        rw [if_neg (by rw [hd]; exact Bool.false_ne_true)]
      have hzip : List.zipWith (toc_of offs) (e :: rest) (offsets_walk (e :: rest) cur) =
          toc_of offs e cur ::
            List.zipWith (toc_of offs) rest (offsets_walk rest (cur + alignUp e.data_size 2048)) := by
        rw [hwalk]
        rfl
      have hpad : alignUp (cur + pd.length) 2048 - (cur + pd.length) =
          alignUp e.data_size 2048 - e.data_size := by
        rw [hpdlen, alignUp_add_left e.data_size hcur]
        omega
      have hcur2 : cur + pd.length + (alignUp (cur + pd.length) 2048 - (cur + pd.length)) =
          cur + alignUp e.data_size 2048 := by
        rw [hpad, hpdlen]
        have := alignUp_le e.data_size
        omega
      have hfd : (toc_of offs e cur).file_data = some pd := by simp [toc_of, hpd]
      have hwrite : write_data (List.zipWith (toc_of offs) (e :: rest)
            (offsets_walk (e :: rest) cur)) cur =
          pd ++ (List.replicate (alignUp e.data_size 2048 - e.data_size) 0 ++
            write_data (List.zipWith (toc_of offs) rest
              (offsets_walk rest (cur + alignUp e.data_size 2048)))
              (cur + alignUp e.data_size 2048)) := by
        rw [hzip, write_data_cons_payload _ cur (by simp [toc_of, hd]) hfd, hpad]
        have harg : cur + pd.length + (alignUp e.data_size 2048 - e.data_size) =
            cur + alignUp e.data_size 2048 := by
          rw [hpdlen]
          have := alignUp_le e.data_size
          omega
        rw [harg]
      have hcur' : (cur + alignUp e.data_size 2048) % 2048 = 0 := by
        have := alignUp_mod e.data_size
        omega
      obtain ⟨ihlen, ihslice⟩ := ih (cur + alignUp e.data_size 2048) hcur' hok_rest
      constructor
      · rw [hwrite, sum_aligned_cons_file rest hd]
        simp only [List.length_append, List.length_replicate, ihlen]
        have := alignUp_le e.data_size
        omega
      · intro i e' hi hdir
        cases i with
        | zero =>
          obtain rfl : e = e' := Option.some.inj hi
          refine ⟨cur, pd, by rw [hwalk]; rfl, hpd, le_refl cur, hcur, ?_, ?_⟩
          · rw [sum_aligned_cons_file rest hd]
            omega
          · refine ⟨List.replicate (alignUp e.data_size 2048 - e.data_size) 0 ++
              write_data (List.zipWith (toc_of offs) rest
                (offsets_walk rest (cur + alignUp e.data_size 2048)))
                (cur + alignUp e.data_size 2048), ?_⟩
            rw [hwrite]
            simp
        | succ j =>
          obtain ⟨off, pd', h1, h2, h3, h4, h5, h6⟩ := ihslice j e' hi hdir
          obtain ⟨tail, htail⟩ := h6
          refine ⟨off, pd', by rw [hwalk]; simpa using h1, h2, by omega, h4, ?_, ?_⟩
          · rw [sum_aligned_cons_file rest hd]
            omega
          · refine ⟨tail, ?_⟩
            rw [hwrite, ← List.append_assoc]
            rw [drop_append_ge _ _ _ (by
              simp only [List.length_append, List.length_replicate]
              have := alignUp_le e.data_size
              omega)]
            have hlen2 : (pd ++ List.replicate (alignUp e.data_size 2048 - e.data_size) 0).length
                = alignUp e.data_size 2048 := by
              simp only [List.length_append, List.length_replicate]
              have := alignUp_le e.data_size
              omega
            rw [hlen2]
            have : off - cur - alignUp e.data_size 2048 =
                off - (cur + alignUp e.data_size 2048) := by omega
            rw [this, htail]

/-! ### TOC serialization and parsing -/

/-- The 16 bytes serialized for one finalized TOC entry. -/
def toc_chunk (t : TocEntry) : Bytes :=
  u32be t.name_offset ++ (u32be t.data_size ++
    (u24slice t.data_offset ++ ([t.flags] ++ u32be t.uncompressed_size)))

theorem toc_chunk_length (t : TocEntry) : (toc_chunk t).length = 16 := rfl

/-- Field bounds under which the per-record `struct.pack` calls succeed. -/
def toc_bounds (t : TocEntry) : Prop :=
  t.name_offset < 2 ^ 32 ∧ t.data_size < 2 ^ 32 ∧ t.data_offset < 2 ^ 32 ∧
    t.uncompressed_size < 2 ^ 32

theorem toc_record_eq {t : TocEntry} (h : toc_bounds t) :
    toc_record t = some (toc_chunk t) := by
  obtain ⟨h1, h2, h3, h4⟩ := h
  unfold toc_record
  rw [packU32_eq h1, packU32_eq h2, packU24slice_eq h3, packU32_eq h4]
  rfl

theorem mapM_toc_record (ann : List TocEntry) (h : ∀ t ∈ ann, toc_bounds t) :
    ann.mapM toc_record = some (ann.map toc_chunk) := by
  induction ann with
  | nil => rfl
  | cons t rest ih =>
    rw [List.mapM_cons, toc_record_eq (h t (List.mem_cons_self t rest)),
      ih (fun x hx => h x (List.mem_cons_of_mem t hx))]
    rfl

/-- The 24 header bytes. -/
def header_chunk (entry_count names_length : Nat) : Bytes :=
  u32be 0x52504636 ++ (u32be (entry_count * 16) ++ (u32be entry_count ++
    (u32be names_length ++ (u32be 0 ++ u32be 0x5253440A))))

theorem header_chunk_length (n nl : Nat) : (header_chunk n nl).length = 24 := rfl

theorem pack_header_eq {n nl : Nat} (hn16 : n * 16 < 2 ^ 32) (hn : n < 2 ^ 32)
    (hnl : nl < 2 ^ 32) : pack_header n nl = some (header_chunk n nl) := by
  unfold pack_header
  rw [packU32_eq (show (0x52504636 : Nat) < 2 ^ 32 by norm_num), packU32_eq hn16,
    packU32_eq hn, packU32_eq hnl, packU32_eq (show (0 : Nat) < 2 ^ 32 by norm_num),
    packU32_eq (show (0x5253440A : Nat) < 2 ^ 32 by norm_num)]
  rfl

/-- The entries produced by the TOC parse of a record sequence starting at
    index `i`. -/
def parsed_records : Nat → List Bytes → List PEntry
  | _, [] => []
  | i, r :: rs => parse_entry_record i r :: parsed_records (i + 1) rs

theorem parsed_records_length (recs : List Bytes) :
    ∀ i, (parsed_records i recs).length = recs.length := by
  induction recs with
  | nil => intro i; rfl
  | cons r rs ih => intro i; simp [parsed_records, ih]

theorem parsed_records_get? (recs : List Bytes) :
    ∀ i j, (parsed_records i recs).get? j =
      (recs.get? j).map (fun r => parse_entry_record (i + j) r) := by
  induction recs with
  | nil => intro i j; cases j <;> rfl
  | cons r rs ih =>
    intro i j
    cases j with
    | zero => rfl
    | succ k =>
      simp only [parsed_records, List.get?_cons_succ, ih (i + 1) k]
      have harith : i + 1 + k = i + (k + 1) := by omega
      rw [harith]

/-- Parsing the TOC of a byte string whose tail from offset `24 + i*16` is a
    flat sequence of 16-byte records followed by anything. -/
theorem parse_entries_concat (bs : Bytes) (recs : List Bytes) :
    ∀ (i : Nat) (rest : Bytes),
      (∀ r ∈ recs, r.length = 16) →
      bs.drop (24 + i * 16) = recs.flatten ++ rest →
      parse_entries_from bs recs.length i = parsed_records i recs := by
  induction recs with
  | nil => intro i rest _ _; rfl
  | cons r rs ih =>
    intro i rest hlen hdrop
    have hr : r.length = 16 := hlen r (List.mem_cons_self r rs)
    have hflat : bs.drop (24 + i * 16) = r ++ (rs.flatten ++ rest) := by
      rw [hdrop, List.flatten_cons, List.append_assoc]
    have hchunk : (bs.drop (24 + i * 16)).take 16 = r := by
      rw [hflat, List.take_append_of_le_length (by omega), List.take_of_length_le (by omega)]
    have hnext : bs.drop (24 + (i + 1) * 16) = rs.flatten ++ rest := by
      have harith : 24 + (i + 1) * 16 = 24 + i * 16 + 16 := by ring
      rw [harith, ← List.drop_drop, hflat, List.drop_left' hr]
    show parse_entries_from bs (rs.length + 1) i = _
    unfold parse_entries_from
    rw [hchunk, if_neg (by omega), ih (i + 1) rest
      (fun x hx => hlen x (List.mem_cons_of_mem r hx)) hnext]
    rfl

/-- Parsing the 16-byte record serialized for `t` recovers its fields
    (`data_offset` needs to fit the 3-byte field). -/
theorem parse_entry_record_chunk (i : Nat) (t : TocEntry) (h1 : t.name_offset < 2 ^ 32)
    (h2 : t.data_size < 2 ^ 32) (h3 : t.data_offset < 2 ^ 24)
    (h4 : t.uncompressed_size < 2 ^ 32) :
    parse_entry_record i (toc_chunk t) =
      { index := i
        name_offset := t.name_offset
        data_size := t.data_size
        data_offset := t.data_offset
        flags := t.flags
        uncompressed_size := t.uncompressed_size
        name := []
        is_compressed := t.flags &&& 0x80 != 0
        is_directory := t.flags &&& 0x40 != 0
        resource_type := t.flags &&& 0x3F } := by
  have hchunk : toc_chunk t =
      [t.name_offset / 2 ^ 24 % 256, t.name_offset / 2 ^ 16 % 256,
       t.name_offset / 2 ^ 8 % 256, t.name_offset % 256,
       t.data_size / 2 ^ 24 % 256, t.data_size / 2 ^ 16 % 256,
       t.data_size / 2 ^ 8 % 256, t.data_size % 256,
       t.data_offset / 2 ^ 16 % 256, t.data_offset / 2 ^ 8 % 256, t.data_offset % 256,
       t.flags,
       t.uncompressed_size / 2 ^ 24 % 256, t.uncompressed_size / 2 ^ 16 % 256,
       t.uncompressed_size / 2 ^ 8 % 256, t.uncompressed_size % 256] := rfl
  rw [hchunk]
  unfold parse_entry_record
  simp only [List.take, List.drop, List.getD, List.getElem?_cons_succ,
    List.getElem?_cons_zero, Option.getD_some, be_bytes_val, List.foldl]
  congr 1 <;> first | rfl | omega

/-- A wellformed archive path: nonempty, every code point a nonzero ASCII
    character.  Such names survive the encode/decode and null-termination
    round trip. -/
def wf_path (p : List Nat) : Prop := p ≠ [] ∧ ∀ c ∈ p, 0 < c ∧ c < 128

theorem encodeAscii_id {p : List Nat} (h : ∀ c ∈ p, c < 128) : encodeAscii p = p := by
  induction p with
  | nil => rfl
  | cons c rest ih =>
    unfold encodeAscii at *
    simp only [List.map_cons]
    rw [if_pos (h c (List.mem_cons_self c rest)),
      ih (fun x hx => h x (List.mem_cons_of_mem c hx))]

theorem encodeAscii_wf {p : List Nat} (h : wf_path p) : encodeAscii p = p :=
  encodeAscii_id (fun c hc => (h.2 c hc).2)

theorem takeWhile_all_pos {p : List Nat} (suffix : Bytes) (h : ∀ c ∈ p, 0 < c) :
    ((p ++ [0] ++ suffix).takeWhile (fun b => b != 0)) = p := by
  induction p with
  | nil => simp [List.takeWhile]
  | cons c rest ih =>
    have hc : 0 < c := h c (List.mem_cons_self c rest)
    simp only [List.cons_append, List.takeWhile_cons]
    rw [if_pos (by simpa using Nat.pos_iff_ne_zero.mp hc)]
    rw [ih (fun x hx => h x (List.mem_cons_of_mem c hx))]

/-! ### Write/parse master lemmas -/

theorem mem_zipWith {α β γ : Type} {f : α → β → γ} {c : γ} :
    ∀ {as : List α} {bs : List β}, c ∈ List.zipWith f as bs →
      ∃ a b, a ∈ as ∧ b ∈ bs ∧ c = f a b := by
  intro as
  induction as with
  | nil => intro bs h; cases h
  | cons a arest ih =>
    intro bs h
    cases bs with
    | nil => cases h
    | cons b brest =>
      rcases List.mem_cons.mp h with rfl | h
      · exact ⟨a, b, List.mem_cons_self a arest, List.mem_cons_self b brest, rfl⟩
      · obtain ⟨a', b', ha, hb, rfl⟩ := ih h
        exact ⟨a', b', List.mem_cons_of_mem a ha, List.mem_cons_of_mem b hb, rfl⟩

theorem offsets_walk_mem_le (es : List WEntry) :
    ∀ cur off, off ∈ offsets_walk es cur → off ≤ cur + sum_aligned es := by
  induction es with
  | nil => intro cur off h; cases h
  | cons e rest ih =>
    intro cur off h
    cases hd : e.is_directory with
    | true =>
      rw [show offsets_walk (e :: rest) cur = 0 :: offsets_walk rest cur by
        conv_lhs => unfold offsets_walk
        rw [if_pos hd]] at h
      rcases List.mem_cons.mp h with rfl | h
      · omega
      · rw [sum_aligned_cons_dir rest hd]
        exact ih cur off h
    | false =>
      rw [show offsets_walk (e :: rest) cur =
          cur :: offsets_walk rest (cur + alignUp e.data_size 2048) by
        conv_lhs => unfold offsets_walk
        rw [if_neg (by rw [hd]; exact Bool.false_ne_true)]] at h
      rw [sum_aligned_cons_file rest hd]
      rcases List.mem_cons.mp h with rfl | h
      · omega
      · have := ih (cur + alignUp e.data_size 2048) off h
        omega

theorem aligned_size_le_sum {es : List WEntry} {e : WEntry} (he : e ∈ es)
    (hd : e.is_directory = false) : alignUp e.data_size 2048 ≤ sum_aligned es := by
  unfold sum_aligned
  refine List.single_le_sum (by simp) _ (List.mem_map_of_mem _ ?_)
  rw [List.mem_filter]
  exact ⟨he, by rw [hd]; rfl⟩

/-- The finalized TOC entries of `write_archive` for a writer state. -/
def arch_ann (es : List WEntry) : List TocEntry :=
  List.zipWith (toc_of (build_name_table es).2) es
    (calc_data_offsets es (build_name_table es).1.length)

/-- The 2048-aligned start of the data section. -/
def arch_data_start (es : List WEntry) : Nat :=
  alignUp (24 + es.length * 16 + (build_name_table es).1.length) 2048

theorem estimate_eq (es : List WEntry) :
    estimate_archive_size es =
      24 + es.length * 16 + (build_name_table es).1.length + sum_aligned es := rfl

theorem arch_data_start_le (es : List WEntry) :
    arch_data_start es < 24 + es.length * 16 + (build_name_table es).1.length + 2048 :=
  alignUp_lt _

theorem payload_ok_dirsz {es : List WEntry} (hpay : entries_payload_ok es) :
    ∀ e ∈ es, e.is_directory = true → e.data_size = 0 := by
  intro e he hd
  have := hpay e he
  rw [hd] at this
  simp only [if_true] at this
  exact this.2.1

theorem arch_ann_bounds (es : List WEntry)
    (hdirsz : ∀ e ∈ es, e.is_directory = true → e.data_size = 0)
    (husz : ∀ e ∈ es, e.uncompressed_size < 2 ^ 32)
    (hest : estimate_archive_size es < 2 ^ 32) :
    ∀ t ∈ arch_ann es, toc_bounds t ∧ t.data_offset < 2 ^ 24 := by
  intro t ht
  obtain ⟨e, off, he, hoff, rfl⟩ := mem_zipWith ht
  have htbl := build_name_table_inv es
  have hoffle : off ≤ arch_data_start es + sum_aligned es :=
    offsets_walk_mem_le es _ off hoff
  have hds : e.data_size ≤ sum_aligned es := by
    cases hd : e.is_directory with
    | true =>
      have := hdirsz e he hd
      omega
    | false =>
      have h1 := aligned_size_le_sum he hd
      have h2 := alignUp_le e.data_size
      omega
  have hoffb : off < 2 ^ 32 + 2048 := by
    have h1 := arch_data_start_le es
    rw [estimate_eq es] at hest
    omega
  refine ⟨⟨?_, ?_, ?_, ?_⟩, ?_⟩
  · show (alookup e.name (build_name_table es).2).getD 0 < 2 ^ 32
    obtain ⟨v, hv⟩ := build_name_table_lookup es e he
    have := (htbl e.name v hv).1
    rw [hv, Option.getD_some]
    rw [estimate_eq es] at hest
    omega
  · show e.data_size < 2 ^ 32
    rw [estimate_eq es] at hest
    omega
  · show off / 2048 < 2 ^ 32
    omega
  · show e.uncompressed_size < 2 ^ 32
    exact husz e he
  · show off / 2048 < 2 ^ 24
    omega

theorem toc_flatten_length (ann : List TocEntry) :
    ((ann.map toc_chunk).flatten).length = 16 * ann.length := by
  induction ann with
  | nil => rfl
  | cons t rest ih =>
    simp only [List.map_cons, List.flatten_cons, List.length_append, toc_chunk_length, ih,
      List.length_cons]
    ring

theorem arch_ann_length (es : List WEntry) : (arch_ann es).length = es.length := by
  unfold arch_ann calc_data_offsets
  rw [List.length_zipWith, offsets_walk_length]
  exact Nat.min_self es.length

theorem write_archive_eq (es : List WEntry)
    (hdirsz : ∀ e ∈ es, e.is_directory = true → e.data_size = 0)
    (husz : ∀ e ∈ es, e.uncompressed_size < 2 ^ 32)
    (hest : estimate_archive_size es < 2 ^ 32) :
    write_archive es = some
      (((header_chunk es.length (build_name_table es).1.length ++
          ((((arch_ann es).map toc_chunk).flatten) ++ (build_name_table es).1)) ++
        List.replicate (arch_data_start es -
          (24 + es.length * 16 + (build_name_table es).1.length)) 0) ++
       write_data (arch_ann es) (arch_data_start es)) := by
  have hlookup : ∀ e ∈ es, (alookup e.name (build_name_table es).2).isSome := by
    intro e he
    obtain ⟨v, hv⟩ := build_name_table_lookup es e he
    simp [hv]
  have hofflen : (calc_data_offsets es (build_name_table es).1.length).length = es.length := by
    unfold calc_data_offsets
    exact offsets_walk_length es _
  have hann := annotate_eq (build_name_table es).2 es _ hlookup hofflen
  have hbounds := arch_ann_bounds es hdirsz husz hest
  have hb : 24 + es.length * 16 + (build_name_table es).1.length + sum_aligned es < 2 ^ 32 := by
    rw [estimate_eq es] at hest
    exact hest
  have hhdr : pack_header es.length (build_name_table es).1.length =
      some (header_chunk es.length (build_name_table es).1.length) :=
    pack_header_eq (by omega) (by omega) (by omega)
  have htoc : (arch_ann es).mapM toc_record = some ((arch_ann es).map toc_chunk) :=
    mapM_toc_record (arch_ann es) (fun t ht => (hbounds t ht).1)
  have hpre : (header_chunk es.length (build_name_table es).1.length ++
      ((((arch_ann es).map toc_chunk).flatten) ++ (build_name_table es).1)).length =
      24 + es.length * 16 + (build_name_table es).1.length := by
    simp only [List.length_append, header_chunk_length, toc_flatten_length, arch_ann_length]
    ring
  simp only [write_archive]
  rw [show (List.zipWith (toc_of (build_name_table es).2) es
      (calc_data_offsets es (build_name_table es).1.length)) = arch_ann es from rfl] at hann
  rw [hann]
  simp only [Option.bind_eq_bind, Option.some_bind]
  rw [hhdr]
  simp only [Option.some_bind]
  rw [htoc]
  simp only [Option.some_bind]
  rw [hpre]
  have hbody : ((header_chunk es.length (build_name_table es).1.length ++
      ((((arch_ann es).map toc_chunk).flatten) ++ (build_name_table es).1)) ++
      List.replicate (alignUp (24 + es.length * 16 + (build_name_table es).1.length) 2048 -
        (24 + es.length * 16 + (build_name_table es).1.length)) 0).length =
      arch_data_start es := by
    simp only [List.length_append, List.length_replicate, hpre]
    have h1 := alignUp_le (24 + es.length * 16 + (build_name_table es).1.length)
    unfold arch_data_start
    omega
  rw [hbody]
  rfl

theorem read_uint32_head (v : Nat) (rest : Bytes) (hv : v < 2 ^ 32) :
    read_uint32 (u32be v ++ rest) 0 = v :=
  read_uint32_at [] v rest 0 rfl hv

theorem parse_write_archive (es : List WEntry)
    (hdirsz : ∀ e ∈ es, e.is_directory = true → e.data_size = 0)
    (husz : ∀ e ∈ es, e.uncompressed_size < 2 ^ 32)
    (hest : estimate_archive_size es < 2 ^ 32) :
    ∃ bs, write_archive es = some bs ∧
      bs.length = arch_data_start es +
        (write_data (arch_ann es) (arch_data_start es)).length ∧
      parse_rpf6_structure bs = .ok
        { file_bytes := bs
          entries := (parsed_records 0 ((arch_ann es).map toc_chunk)).map
            (resolve_name (build_name_table es).1)
          name_table := (build_name_table es).1 } ∧
      (entries_payload_ok es →
        (write_data (arch_ann es) (arch_data_start es)).length = sum_aligned es ∧
        ∀ i e, es.get? i = some e → e.is_directory = false →
          ∃ off pd, (calc_data_offsets es (build_name_table es).1.length).get? i = some off ∧
            e.file_data = some pd ∧ arch_data_start es ≤ off ∧ off % 2048 = 0 ∧
            off + alignUp e.data_size 2048 ≤ arch_data_start es + sum_aligned es ∧
            (bs.drop off).take e.data_size = pd) := by
  have hb : 24 + es.length * 16 + (build_name_table es).1.length + sum_aligned es < 2 ^ 32 := by
    rw [estimate_eq es] at hest
    exact hest
  have hbs := write_archive_eq es hdirsz husz hest
  refine ⟨_, hbs, ?_, ?_, ?_⟩
  all_goals
    have hpre : (header_chunk es.length (build_name_table es).1.length ++
        ((((arch_ann es).map toc_chunk).flatten) ++ (build_name_table es).1)).length =
        24 + es.length * 16 + (build_name_table es).1.length := by
      simp only [List.length_append, header_chunk_length, toc_flatten_length, arch_ann_length]
      ring
  all_goals
    have hdsle := alignUp_le (24 + es.length * 16 + (build_name_table es).1.length)
  all_goals
    have hlenbs : (((header_chunk es.length (build_name_table es).1.length ++
        ((((arch_ann es).map toc_chunk).flatten) ++ (build_name_table es).1)) ++
        List.replicate (arch_data_start es -
          (24 + es.length * 16 + (build_name_table es).1.length)) 0) ++
        write_data (arch_ann es) (arch_data_start es)).length =
        arch_data_start es +
          (write_data (arch_ann es) (arch_data_start es)).length := by
      simp only [List.length_append, List.length_replicate, hpre]
      unfold arch_data_start
      omega
  · exact hlenbs
  · have hn32 : es.length < 2 ^ 32 := by omega
    have hnl32 : (build_name_table es).1.length < 2 ^ 32 := by omega
    have hn16 : es.length * 16 < 2 ^ 32 := by omega
    have h0 : read_uint32 (((header_chunk es.length (build_name_table es).1.length ++
        ((((arch_ann es).map toc_chunk).flatten) ++ (build_name_table es).1)) ++
        List.replicate (arch_data_start es -
          (24 + es.length * 16 + (build_name_table es).1.length)) 0) ++
        write_data (arch_ann es) (arch_data_start es)) 0 = 0x52504636 := by
      rw [show ((header_chunk es.length (build_name_table es).1.length ++
          ((((arch_ann es).map toc_chunk).flatten) ++ (build_name_table es).1)) ++
          List.replicate (arch_data_start es -
            (24 + es.length * 16 + (build_name_table es).1.length)) 0) ++
          write_data (arch_ann es) (arch_data_start es) =
        u32be 0x52504636 ++ (u32be (es.length * 16) ++ (u32be es.length ++
          (u32be (build_name_table es).1.length ++ (u32be 0 ++ (u32be 0x5253440A ++
            ((((arch_ann es).map toc_chunk).flatten) ++ ((build_name_table es).1 ++
              (List.replicate (arch_data_start es -
                (24 + es.length * 16 + (build_name_table es).1.length)) 0 ++
               write_data (arch_ann es) (arch_data_start es))))))))) from by
        simp only [header_chunk, List.append_assoc]]
      exact read_uint32_head _ _ (by norm_num)
    have h8 : read_uint32 (((header_chunk es.length (build_name_table es).1.length ++
        ((((arch_ann es).map toc_chunk).flatten) ++ (build_name_table es).1)) ++
        List.replicate (arch_data_start es -
          (24 + es.length * 16 + (build_name_table es).1.length)) 0) ++
        write_data (arch_ann es) (arch_data_start es)) 8 = es.length := by
      rw [show ((header_chunk es.length (build_name_table es).1.length ++
          ((((arch_ann es).map toc_chunk).flatten) ++ (build_name_table es).1)) ++
          List.replicate (arch_data_start es -
            (24 + es.length * 16 + (build_name_table es).1.length)) 0) ++
          write_data (arch_ann es) (arch_data_start es) =
        (u32be 0x52504636 ++ u32be (es.length * 16)) ++ (u32be es.length ++
          (u32be (build_name_table es).1.length ++ (u32be 0 ++ (u32be 0x5253440A ++
            ((((arch_ann es).map toc_chunk).flatten) ++ ((build_name_table es).1 ++
              (List.replicate (arch_data_start es -
                (24 + es.length * 16 + (build_name_table es).1.length)) 0 ++
               write_data (arch_ann es) (arch_data_start es)))))))) from by
        simp only [header_chunk, List.append_assoc]]
      exact read_uint32_at _ _ _ 8 (by simp [u32be]) hn32
    have h12 : read_uint32 (((header_chunk es.length (build_name_table es).1.length ++
        ((((arch_ann es).map toc_chunk).flatten) ++ (build_name_table es).1)) ++
        List.replicate (arch_data_start es -
          (24 + es.length * 16 + (build_name_table es).1.length)) 0) ++
        write_data (arch_ann es) (arch_data_start es)) 12 =
        (build_name_table es).1.length := by
      rw [show ((header_chunk es.length (build_name_table es).1.length ++
          ((((arch_ann es).map toc_chunk).flatten) ++ (build_name_table es).1)) ++
          List.replicate (arch_data_start es -
            (24 + es.length * 16 + (build_name_table es).1.length)) 0) ++
          write_data (arch_ann es) (arch_data_start es) =
        (u32be 0x52504636 ++ (u32be (es.length * 16) ++ u32be es.length)) ++
          (u32be (build_name_table es).1.length ++ (u32be 0 ++ (u32be 0x5253440A ++
            ((((arch_ann es).map toc_chunk).flatten) ++ ((build_name_table es).1 ++
              (List.replicate (arch_data_start es -
                (24 + es.length * 16 + (build_name_table es).1.length)) 0 ++
               write_data (arch_ann es) (arch_data_start es))))))) from by
        simp only [header_chunk, List.append_assoc]]
      exact read_uint32_at _ _ _ 12 (by simp [u32be]) hnl32
    have hdrop24 : (((header_chunk es.length (build_name_table es).1.length ++
        ((((arch_ann es).map toc_chunk).flatten) ++ (build_name_table es).1)) ++
        List.replicate (arch_data_start es -
          (24 + es.length * 16 + (build_name_table es).1.length)) 0) ++
        write_data (arch_ann es) (arch_data_start es)).drop 24 =
        (((arch_ann es).map toc_chunk).flatten) ++ ((build_name_table es).1 ++
          (List.replicate (arch_data_start es -
            (24 + es.length * 16 + (build_name_table es).1.length)) 0 ++
           write_data (arch_ann es) (arch_data_start es))) := by
      rw [show ((header_chunk es.length (build_name_table es).1.length ++
          ((((arch_ann es).map toc_chunk).flatten) ++ (build_name_table es).1)) ++
          List.replicate (arch_data_start es -
            (24 + es.length * 16 + (build_name_table es).1.length)) 0) ++
          write_data (arch_ann es) (arch_data_start es) =
        header_chunk es.length (build_name_table es).1.length ++
          ((((arch_ann es).map toc_chunk).flatten) ++ ((build_name_table es).1 ++
            (List.replicate (arch_data_start es -
              (24 + es.length * 16 + (build_name_table es).1.length)) 0 ++
             write_data (arch_ann es) (arch_data_start es)))) from by
        simp only [List.append_assoc]]
      exact List.drop_left' (header_chunk_length _ _)
    have hchunks_len : ∀ r ∈ (arch_ann es).map toc_chunk, r.length = 16 := by
      intro r hr
      obtain ⟨t, _, rfl⟩ := List.mem_map.mp hr
      exact toc_chunk_length t
    have hparse_toc := parse_entries_concat
      (((header_chunk es.length (build_name_table es).1.length ++
        ((((arch_ann es).map toc_chunk).flatten) ++ (build_name_table es).1)) ++
        List.replicate (arch_data_start es -
          (24 + es.length * 16 + (build_name_table es).1.length)) 0) ++
        write_data (arch_ann es) (arch_data_start es))
      ((arch_ann es).map toc_chunk) 0
      ((build_name_table es).1 ++
        (List.replicate (arch_data_start es -
          (24 + es.length * 16 + (build_name_table es).1.length)) 0 ++
         write_data (arch_ann es) (arch_data_start es)))
      hchunks_len (by simpa using hdrop24)
    rw [List.length_map, arch_ann_length] at hparse_toc
    have htable : ((((header_chunk es.length (build_name_table es).1.length ++
        ((((arch_ann es).map toc_chunk).flatten) ++ (build_name_table es).1)) ++
        List.replicate (arch_data_start es -
          (24 + es.length * 16 + (build_name_table es).1.length)) 0) ++
        write_data (arch_ann es) (arch_data_start es)).drop
          (24 + es.length * 16)).take (build_name_table es).1.length =
        (build_name_table es).1 := by
      rw [show ((header_chunk es.length (build_name_table es).1.length ++
          ((((arch_ann es).map toc_chunk).flatten) ++ (build_name_table es).1)) ++
          List.replicate (arch_data_start es -
            (24 + es.length * 16 + (build_name_table es).1.length)) 0) ++
          write_data (arch_ann es) (arch_data_start es) =
        (header_chunk es.length (build_name_table es).1.length ++
          (((arch_ann es).map toc_chunk).flatten)) ++ ((build_name_table es).1 ++
          (List.replicate (arch_data_start es -
            (24 + es.length * 16 + (build_name_table es).1.length)) 0 ++
           write_data (arch_ann es) (arch_data_start es))) from by
        simp only [List.append_assoc]]
      rw [List.drop_left' (by
        simp only [List.length_append, header_chunk_length, toc_flatten_length,
          arch_ann_length]
        ring)]
      rw [List.take_append_of_le_length (le_refl _), List.take_length]
    have hA : ¬(arch_data_start es +
        (write_data (arch_ann es) (arch_data_start es)).length < 24) := by
      unfold arch_data_start
      omega
    have hB : ¬((0x52504636 : Nat) ≠ 0x52504636) := fun hc => hc rfl
    simp only [parse_rpf6_structure]
    rw [hlenbs, if_neg hA, h0, if_neg hB, h8, h12, htable, hparse_toc]
  · intro hpay
    obtain ⟨hlay_len, hlay_slice⟩ :=
      data_section_layout (build_name_table es).2 es (arch_data_start es)
        (alignUp_mod _) hpay
    have hwalk_eq : offsets_walk es (arch_data_start es) =
        calc_data_offsets es (build_name_table es).1.length := rfl
    have hann_eq : List.zipWith (toc_of (build_name_table es).2) es
        (calc_data_offsets es (build_name_table es).1.length) = arch_ann es := rfl
    rw [hwalk_eq] at hlay_len hlay_slice
    rw [hann_eq] at hlay_len hlay_slice
    refine ⟨hlay_len, ?_⟩
    intro i e hi hd
    obtain ⟨off, pd, hoff, hpd, hge, hmod, hbound, tail, htail⟩ := hlay_slice i e hi hd
    have hbodylen : ((header_chunk es.length (build_name_table es).1.length ++
        ((((arch_ann es).map toc_chunk).flatten) ++ (build_name_table es).1)) ++
        List.replicate (arch_data_start es -
          (24 + es.length * 16 + (build_name_table es).1.length)) 0).length =
        arch_data_start es := by
      simp only [List.length_append, List.length_replicate, hpre]
      unfold arch_data_start
      omega
    refine ⟨off, pd, hoff, hpd, hge, hmod, hbound, ?_⟩
    rw [drop_append_ge _ _ off (by rw [hbodylen]; exact hge), hbodylen, htail]
    have hpdlen : pd.length = e.data_size := by
      have hmem := hpay e (List.get?_mem hi)
      rw [hd] at hmem
      simp only [Bool.false_eq_true, if_false] at hmem
      obtain ⟨pd2, hpd2, hlen2⟩ := hmem
      rw [hpd] at hpd2
      rw [← Option.some.inj hpd2] at hlen2
      exact hlen2
    rw [List.take_append_of_le_length (by omega), List.take_of_length_le (by omega)]

theorem decodeAscii_id {p : List Nat} (h : ∀ c ∈ p, c < 128) : decodeAscii p = p := by
  induction p with
  | nil => rfl
  | cons c rest ih =>
    unfold decodeAscii at *
    simp only [List.map_cons]
    rw [if_pos (h c (List.mem_cons_self c rest)),
      ih (fun x hx => h x (List.mem_cons_of_mem c hx))]

theorem entry_flags_compressed {e : WEntry} (h : e.resource_type = 0) :
    (entry_flags e &&& 0x80 != 0) = e.is_compressed := by
  unfold entry_flags
  rw [h]
  cases e.is_compressed <;> cases e.is_directory <;> decide

theorem entry_flags_directory {e : WEntry} (h : e.resource_type = 0) :
    (entry_flags e &&& 0x40 != 0) = e.is_directory := by
  unfold entry_flags
  rw [h]
  cases e.is_compressed <;> cases e.is_directory <;> decide

theorem entry_flags_rtype {e : WEntry} (h : e.resource_type = 0) :
    entry_flags e &&& 0x3F = 0 := by
  unfold entry_flags
  rw [h]
  cases e.is_compressed <;> cases e.is_directory <;> decide

theorem zipWith_get? {α β γ : Type} (f : α → β → γ) :
    ∀ (as : List α) (bs : List β) (i : Nat) (a : α) (b : β),
      as.get? i = some a → bs.get? i = some b →
      (List.zipWith f as bs).get? i = some (f a b) := by
  intro as
  induction as with
  | nil => intro bs i a b ha; cases ha
  | cons x xs ih =>
    intro bs i a b ha hb
    cases bs with
    | nil => cases hb
    | cons y ys =>
      cases i with
      | zero =>
        obtain rfl : x = a := Option.some.inj ha
        obtain rfl : y = b := Option.some.inj hb
        rfl
      | succ j => exact ih ys j a b ha hb

theorem find?_eq_of_get? {α : Type} (p : α → Bool) :
    ∀ (l : List α) (i : Nat) (x : α),
      l.get? i = some x → p x = true →
      (∀ j, j < i → ∀ y, l.get? j = some y → p y = false) →
      l.find? p = some x := by
  intro l
  induction l with
  | nil => intro i x hx; cases hx
  | cons a rest ih =>
    intro i x hx hpx hbefore
    cases i with
    | zero =>
      obtain rfl : a = x := Option.some.inj hx
      simp [List.find?, hpx]
    | succ j =>
      have ha : p a = false := hbefore 0 (Nat.succ_pos j) a rfl
      simp only [List.find?, ha]
      exact ih j x hx hpx (fun k hk y hy => hbefore (k + 1) (by omega) y hy)

/-- The PEntry obtained for index `i` when the archive written for `es` is
    parsed back, for a wellformed writer state. -/
theorem parsed_entry_at (es : List WEntry)
    (hpay : entries_payload_ok es)
    (hrt : ∀ e ∈ es, e.resource_type = 0)
    (hwf : ∀ e ∈ es, wf_path e.name)
    (husz : ∀ e ∈ es, e.uncompressed_size < 2 ^ 32)
    (hest : estimate_archive_size es < 2 ^ 32)
    (i : Nat) (e : WEntry) (hi : es.get? i = some e) :
    ∃ off, (calc_data_offsets es (build_name_table es).1.length).get? i = some off ∧
      ((parsed_records 0 ((arch_ann es).map toc_chunk)).map
          (resolve_name (build_name_table es).1)).get? i = some
        { index := i
          name_offset := (alookup e.name (build_name_table es).2).getD 0
          data_size := e.data_size
          data_offset := off / 2048
          flags := entry_flags e
          uncompressed_size := e.uncompressed_size
          name := e.name
          is_compressed := e.is_compressed
          is_directory := e.is_directory
          resource_type := 0 } := by
  have hmem : e ∈ es := List.get?_mem hi
  have hilt : i < es.length := by
    by_contra hc
    rw [List.get?_eq_none.mpr (by omega)] at hi
    cases hi
  have hofflen : (calc_data_offsets es (build_name_table es).1.length).length = es.length := by
    unfold calc_data_offsets
    exact offsets_walk_length es _
  obtain ⟨off, hoff⟩ : ∃ off,
      (calc_data_offsets es (build_name_table es).1.length).get? i = some off := by
    have : i < (calc_data_offsets es (build_name_table es).1.length).length := by omega
    exact ⟨_, List.get?_eq_get this⟩
  have hann : (arch_ann es).get? i = some (toc_of (build_name_table es).2 e off) :=
    zipWith_get? _ es _ i e off hi hoff
  have ht_mem : toc_of (build_name_table es).2 e off ∈ arch_ann es := List.get?_mem hann
  obtain ⟨⟨hb1, hb2, hb3, hb4⟩, hb5⟩ :=
    arch_ann_bounds es (payload_ok_dirsz hpay) husz hest _ ht_mem
  have hchunk : ((arch_ann es).map toc_chunk).get? i =
      some (toc_chunk (toc_of (build_name_table es).2 e off)) := by
    rw [List.get?_map, hann]
    rfl
  have hprec : (parsed_records 0 ((arch_ann es).map toc_chunk)).get? i =
      some (parse_entry_record i (toc_chunk (toc_of (build_name_table es).2 e off))) := by
    rw [parsed_records_get?, hchunk]
    simp
  have hrec := parse_entry_record_chunk i (toc_of (build_name_table es).2 e off)
    hb1 hb2 hb5 hb4
  obtain ⟨v, hv⟩ := build_name_table_lookup es e hmem
  obtain ⟨hvle, hvslice⟩ := build_name_table_inv es e.name v hv
  have hwfe := hwf e hmem
  have hname : resolve_name (build_name_table es).1
      (parse_entry_record i (toc_chunk (toc_of (build_name_table es).2 e off))) =
      { index := i
        name_offset := (alookup e.name (build_name_table es).2).getD 0
        data_size := e.data_size
        data_offset := off / 2048
        flags := entry_flags e
        uncompressed_size := e.uncompressed_size
        name := e.name
        is_compressed := e.is_compressed
        is_directory := e.is_directory
        resource_type := 0 } := by
    rw [hrec]
    unfold resolve_name
    have hno : (toc_of (build_name_table es).2 e off).name_offset = v := by
      simp [toc_of, hv]
    have hsplit : (build_name_table es).1.drop v =
        (e.name ++ [0]) ++ ((build_name_table es).1.drop v).drop (e.name.length + 1) := by
      conv_lhs => rw [← List.take_append_drop (e.name.length + 1)
        ((build_name_table es).1.drop v)]
      rw [show ((build_name_table es).1.drop v).take (e.name.length + 1) = e.name ++ [0] from by
        rw [show e.name.length = (encodeAscii e.name).length from by
            rw [encodeAscii_wf hwfe]]
        rw [hvslice, encodeAscii_wf hwfe]]
    have hraw : (((build_name_table es).1.drop
        (toc_of (build_name_table es).2 e off).name_offset).takeWhile
          (fun b => b != 0)) = e.name := by
      rw [hno, hsplit]
      exact takeWhile_all_pos _ (fun c hc => (hwfe.2 c hc).1)
    rw [hraw, if_neg hwfe.1, decodeAscii_id (fun c hc => (hwfe.2 c hc).2)]
    congr 1 <;> first
    | rfl
    | exact entry_flags_compressed (hrt e hmem)
    | exact entry_flags_directory (hrt e hmem)
    | exact entry_flags_rtype (hrt e hmem)
  refine ⟨off, hoff, ?_⟩
  rw [List.get?_map, hprec]
  exact congrArg some hname

theorem parsed_entry_fields (es : List WEntry)
    (hpay : entries_payload_ok es)
    (hrt : ∀ e ∈ es, e.resource_type = 0)
    (hwf : ∀ e ∈ es, wf_path e.name)
    (husz : ∀ e ∈ es, e.uncompressed_size < 2 ^ 32)
    (hest : estimate_archive_size es < 2 ^ 32)
    (i : Nat) (e : WEntry) (hi : es.get? i = some e) :
    ∃ off pe, (calc_data_offsets es (build_name_table es).1.length).get? i = some off ∧
      ((parsed_records 0 ((arch_ann es).map toc_chunk)).map
        (resolve_name (build_name_table es).1)).get? i = some pe ∧
      pe.name = e.name ∧ pe.is_directory = e.is_directory ∧
      pe.is_compressed = e.is_compressed ∧ pe.data_size = e.data_size ∧
      pe.uncompressed_size = e.uncompressed_size ∧ pe.data_offset = off / 2048 := by
  obtain ⟨off, hoff, hpe⟩ := parsed_entry_at es hpay hrt hwf husz hest i e hi
  exact ⟨off, _, hoff, hpe, rfl, rfl, rfl, rfl, rfl, rfl⟩

/-- Writing a wellformed writer state and extracting the name of entry `i`
    (the first entry bearing that name) returns that entry's stored payload,
    decompressed when the entry is compressed. -/
theorem extract_write_first (inflate : Bytes → Option Bytes) (es : List WEntry)
    (hpay : entries_payload_ok es)
    (hrt : ∀ e ∈ es, e.resource_type = 0)
    (hwf : ∀ e ∈ es, wf_path e.name)
    (husz : ∀ e ∈ es, e.uncompressed_size < 2 ^ 32)
    (hest : estimate_archive_size es < 2 ^ 32)
    (i : Nat) (e : WEntry) (pd : Bytes) (hi : es.get? i = some e)
    (hd : e.is_directory = false) (hpd : e.file_data = some pd) (hpdne : 0 < e.data_size)
    (hfirst : ∀ j, j < i → ∀ e2, es.get? j = some e2 → e2.name ≠ e.name) :
    ∃ bs a, write_archive es = some bs ∧ parse_rpf6_structure bs = .ok a ∧
      extract_file inflate a e.name =
        .ok (if e.is_compressed then decompress inflate pd e.uncompressed_size else pd) := by
  obtain ⟨bs, hw, hblen, hparse, hrest⟩ :=
    parse_write_archive es (payload_ok_dirsz hpay) husz hest
  obtain ⟨hwdlen, hslice⟩ := hrest hpay
  obtain ⟨off, pe, hoff, hpe, hpname, hpdir, hpcomp, hpsize, hpusz, hpdo⟩ :=
    parsed_entry_fields es hpay hrt hwf husz hest i e hi
  have hilt : i < es.length := by
    by_contra hc
    rw [List.get?_eq_none.mpr (by omega)] at hi
    cases hi
  obtain ⟨off2, pd2, hoff2, hpd2, hge, hmod, hbound, hslice_eq⟩ := hslice i e hi hd
  obtain rfl : off = off2 := Option.some.inj (hoff ▸ hoff2)
  obtain rfl : pd = pd2 := Option.some.inj (hpd ▸ hpd2)
  have hfind : ((parsed_records 0 ((arch_ann es).map toc_chunk)).map
      (resolve_name (build_name_table es).1)).find?
        (fun x => x.name == e.name && !x.is_directory) = some pe := by
    refine find?_eq_of_get? _ _ i pe hpe (by simp [hpname, hpdir, hd]) ?_
    intro j hj pe2 hpe2
    obtain ⟨e2, he2⟩ : ∃ e2, es.get? j = some e2 := by
      have : j < es.length := by omega
      exact ⟨_, List.get?_eq_get this⟩
    obtain ⟨off3, pe3, _, hpe3, hp3name, _, _, _, _, _⟩ :=
      parsed_entry_fields es hpay hrt hwf husz hest j e2 he2
    obtain rfl : pe2 = pe3 := Option.some.inj (hpe2 ▸ hpe3)
    have hne2 : e2.name ≠ e.name := hfirst j hj e2 he2
    simp [hp3name, hne2]
  have hactual : pe.data_offset * 2048 = off := by
    rw [hpdo]
    omega
  have hofflt : off < bs.length := by
    have h2048 := alignUp_pos hpdne
    rw [hblen, hwdlen]
    omega
  refine ⟨bs, _, hw, hparse, ?_⟩
  simp only [extract_file, hfind, hactual]
  rw [if_neg (by omega)]
  rw [hpsize, hpusz, hpcomp, hslice_eq, apply_ite Except.ok]

/-! ### Round trip -/

/-- The writer entry recorded by `add_file_data` for one (path, bytes, compress)
    tuple. -/
def tuple_entry (compress : Bytes → Bytes) (t : List Nat × Bytes × Bool) : WEntry :=
  { name := t.1
    data_size := (if t.2.2 then compress t.2.1 else t.2.1).length
    uncompressed_size := t.2.1.length
    is_compressed := t.2.2
    is_directory := false
    resource_type := 0
    file_data := some (if t.2.2 then compress t.2.1 else t.2.1) }

/-- The writer state after calling `add_file_data` for each tuple in order. -/
def writer_of_tuples (compress : Bytes → Bytes)
    (tuples : List (List Nat × Bytes × Bool)) : List WEntry :=
  tuples.foldl (fun es t => add_file_data compress es t.2.1 t.1 t.2.2) []

/-- The round-trip pipeline of the C1 claim: `add_file_data` per tuple, then
    `write_archive`, then `RPF6Editor` parse and `extract_file`; `none` when any
    stage fails. -/
def round_trip (compress : Bytes → Bytes) (inflate : Bytes → Option Bytes)
    (tuples : List (List Nat × Bytes × Bool)) (p : List Nat) : Option Bytes :=
  match write_archive (writer_of_tuples compress tuples) with
  | none => none
  | some bs =>
    match parse_rpf6_structure bs with
    | .error _ => none
    | .ok a =>
      match extract_file inflate a p with
      | .error _ => none
      | .ok d => some d

theorem foldl_add_file_data (compress : Bytes → Bytes)
    (tuples : List (List Nat × Bytes × Bool)) :
    ∀ acc, tuples.foldl (fun es t => add_file_data compress es t.2.1 t.1 t.2.2) acc =
      acc ++ tuples.map (tuple_entry compress) := by
  induction tuples with
  | nil => intro acc; simp
  | cons t rest ih =>
    intro acc
    simp only [List.foldl_cons, List.map_cons]
    rw [ih]
    simp [add_file_data, tuple_entry]

theorem writer_of_tuples_eq (compress : Bytes → Bytes)
    (tuples : List (List Nat × Bytes × Bool)) :
    writer_of_tuples compress tuples = tuples.map (tuple_entry compress) := by
  unfold writer_of_tuples
  rw [foldl_add_file_data]
  rfl

theorem nodup_get?_inj {α : Type} :
    ∀ (l : List α), l.Nodup →
      ∀ i j x, l.get? i = some x → l.get? j = some x → i = j := by
  intro l
  induction l with
  | nil => intro _ i j x hx; cases hx
  | cons a rest ih =>
    intro hnd i j x hi hj
    have hna : a ∉ rest := (List.nodup_cons.mp hnd).1
    have hnr : rest.Nodup := (List.nodup_cons.mp hnd).2
    cases i with
    | zero =>
      obtain rfl : a = x := Option.some.inj hi
      cases j with
      | zero => rfl
      | succ j2 =>
        rw [List.get?_cons_succ] at hj
        exact absurd (List.get?_mem hj) hna
    | succ i2 =>
      rw [List.get?_cons_succ] at hi
      cases j with
      | zero =>
        obtain rfl : a = x := Option.some.inj hj
        exact absurd (List.get?_mem hi) hna
      | succ j2 =>
        rw [List.get?_cons_succ] at hj
        exact congrArg Nat.succ (ih hnr i2 j2 x hi hj)

theorem decompress_some (inflate : Bytes → Option Bytes) (data dec : Bytes) (n : Nat)
    (hne : data ≠ []) (hinf : inflate data = some dec) :
    decompress inflate data n =
      if 0 < n then
        if dec.length < n then dec ++ List.replicate (n - dec.length) 0
        else if n < dec.length then dec.take n
        else dec
      else dec := by
  unfold decompress
  rw [if_neg hne, hinf]

theorem decompress_roundtrip (compress : Bytes → Bytes) (inflate : Bytes → Option Bytes)
    (hcne : ∀ x, compress x ≠ []) (hinfl : ∀ x, inflate (compress x) = some x)
    (d : Bytes) : decompress inflate (compress d) d.length = d := by
  rw [decompress_some inflate (compress d) d d.length (hcne d) (hinfl d)]
  by_cases h : 0 < d.length
  · rw [if_pos h, if_neg (by omega), if_neg (by omega)]
  · rw [if_neg h]

/-- C1 (amended): the round trip holds for tuples with pairwise-distinct,
nonempty, NUL-free ASCII paths, nonempty payloads, sizes within the format's
32-bit fields, and an archive small enough for every field to serialize
exactly; zlib is abstracted by a compressor that never returns an empty buffer
and an inflater that inverts it. -/
theorem archive_round_trip_amended (compress : Bytes → Bytes)
    (inflate : Bytes → Option Bytes) (tuples : List (List Nat × Bytes × Bool))
    (hcne : ∀ x, compress x ≠ [])
    (hinfl : ∀ x, inflate (compress x) = some x)
    (hwf : ∀ t ∈ tuples, wf_path t.1)
    (hne : ∀ t ∈ tuples, t.2.1 ≠ [])
    (hlen : ∀ t ∈ tuples, t.2.1.length < 2 ^ 32)
    (hnd : (tuples.map (fun t => t.1)).Nodup)
    (hest : estimate_archive_size (writer_of_tuples compress tuples) < 2 ^ 32) :
    ∀ t ∈ tuples, round_trip compress inflate tuples t.1 = some t.2.1 := by
  intro t ht
  obtain ⟨i, hti⟩ := List.get?_of_mem ht
  rw [writer_of_tuples_eq] at hest
  have hi : (tuples.map (tuple_entry compress)).get? i = some (tuple_entry compress t) := by
    rw [List.get?_map, hti]
    rfl
  have hpay : entries_payload_ok (tuples.map (tuple_entry compress)) := by
    intro e he
    obtain ⟨t2, _, rfl⟩ := List.mem_map.mp he
    simp [tuple_entry]
  have hrt : ∀ e ∈ tuples.map (tuple_entry compress), e.resource_type = 0 := by
    intro e he
    obtain ⟨t2, _, rfl⟩ := List.mem_map.mp he
    rfl
  have hwfE : ∀ e ∈ tuples.map (tuple_entry compress), wf_path e.name := by
    intro e he
    obtain ⟨t2, ht2, rfl⟩ := List.mem_map.mp he
    exact hwf t2 ht2
  have husz : ∀ e ∈ tuples.map (tuple_entry compress), e.uncompressed_size < 2 ^ 32 := by
    intro e he
    obtain ⟨t2, ht2, rfl⟩ := List.mem_map.mp he
    exact hlen t2 ht2
  have hpdne : 0 < (tuple_entry compress t).data_size := by
    show 0 < (if t.2.2 then compress t.2.1 else t.2.1).length
    cases hc : t.2.2 with
    | true => simpa using List.length_pos.mpr (hcne t.2.1)
    | false => simpa using List.length_pos.mpr (hne t ht)
  have hfirst : ∀ j, j < i → ∀ e2, (tuples.map (tuple_entry compress)).get? j = some e2 →
      e2.name ≠ (tuple_entry compress t).name := by
    intro j hj e2 he2 hcontra
    rw [List.get?_map] at he2
    cases ht2 : tuples.get? j with
    | none => rw [ht2] at he2; cases he2
    | some t2 =>
      rw [ht2] at he2
      obtain rfl : tuple_entry compress t2 = e2 := Option.some.inj he2
      have hn2 : (tuples.map (fun t => t.1)).get? j = some t.1 := by
        rw [List.get?_map, ht2]
        simpa using hcontra
      have hn1 : (tuples.map (fun t => t.1)).get? i = some t.1 := by
        rw [List.get?_map, hti]
        rfl
      have := nodup_get?_inj _ hnd j i t.1 hn2 hn1
      omega
  obtain ⟨bs, a, hw, hparse, hextract⟩ := extract_write_first inflate
    (tuples.map (tuple_entry compress)) hpay hrt hwfE husz hest i
    (tuple_entry compress t) (if t.2.2 then compress t.2.1 else t.2.1) hi rfl rfl
    hpdne hfirst
  have hres : (if (tuple_entry compress t).is_compressed then
      decompress inflate (if t.2.2 then compress t.2.1 else t.2.1)
        (tuple_entry compress t).uncompressed_size
      else (if t.2.2 then compress t.2.1 else t.2.1)) = t.2.1 := by
    show (if t.2.2 then
        decompress inflate (if t.2.2 then compress t.2.1 else t.2.1) t.2.1.length
      else (if t.2.2 then compress t.2.1 else t.2.1)) = t.2.1
    cases hc : t.2.2 with
    | true =>
      simp only [if_pos rfl]
      exact decompress_roundtrip compress inflate hcne hinfl t.2.1
    | false => simp
  rw [hres] at hextract
  unfold round_trip
  rw [writer_of_tuples_eq, hw]
  show (match parse_rpf6_structure bs with
    | .error _ => none
    | .ok a =>
      match extract_file inflate a t.1 with
      | .error _ => none
      | .ok d => some d) = some t.2.1
  rw [hparse]
  show (match extract_file inflate a t.1 with
    | .error _ => none
    | .ok d => some d) = some t.2.1
  rw [show (tuple_entry compress t).name = t.1 from rfl] at hextract
  rw [hextract]

/-- Wellformedness of a path is decidable. -/
instance (p : List Nat) : Decidable (wf_path p) := by
  unfold wf_path
  infer_instance

/-- Name resolution never yields an empty name: an empty scan is replaced by the
    placeholder name. -/
theorem resolve_name_ne_nil (tbl : Bytes) (e : PEntry) : (resolve_name tbl e).name ≠ [] := by
  unfold resolve_name
  by_cases h : ((tbl.drop e.name_offset).takeWhile (fun b => b != 0)) = []
  · rw [if_pos h]
    show unnamed_name e.index ≠ []
    unfold unnamed_name
    simp
  · rw [if_neg h]
    show decodeAscii _ ≠ []
    unfold decodeAscii
    simpa using h

theorem extract_notFound (inflate : Bytes → Option Bytes) (a : Archive) (nm : List Nat)
    (h : ∀ pe ∈ a.entries, pe.name ≠ nm) :
    extract_file inflate a nm = .error .notFound := by
  have hfind : a.entries.find? (fun e => e.name == nm && !e.is_directory) = none :=
    List.find?_eq_none.mpr (fun pe hpe => by simp [h pe hpe])
  simp [extract_file, hfind]

/-- C1 counterexample: the round trip fails as stated on the single tuple with
the empty path — the archive writes successfully, but the reader resolves the
empty name to the placeholder "[Unnamed_0]", so extraction reports not-found. -/
theorem archive_round_trip_counterexample :
    round_trip id (fun _ => none) [([], [1], false)] [] = none ∧
      round_trip id (fun _ => none) [([], [1], false)] [] ≠ some [1] ∧
      (write_archive (writer_of_tuples id [([], [1], false)])).isSome = true := by
  have hdirsz : ∀ e ∈ writer_of_tuples id [([], [1], false)],
      e.is_directory = true → e.data_size = 0 := by
    intro e he hd
    rw [writer_of_tuples_eq] at he
    obtain ⟨t, ht, rfl⟩ := List.mem_map.mp he
    simp [tuple_entry] at hd
  have husz : ∀ e ∈ writer_of_tuples id [([], [1], false)],
      e.uncompressed_size < 2 ^ 32 := by
    intro e he
    rw [writer_of_tuples_eq] at he
    obtain ⟨t, ht, rfl⟩ := List.mem_map.mp he
    obtain rfl : t = ([], ([1], false)) := List.mem_singleton.mp ht
    norm_num [tuple_entry]
  have hest : estimate_archive_size (writer_of_tuples id [([], [1], false)]) < 2 ^ 32 := by
    decide
  obtain ⟨bs, hw, hblen, hparse, _⟩ :=
    parse_write_archive (writer_of_tuples id [([], [1], false)]) hdirsz husz hest
  have hex : extract_file (fun _ => none)
      { file_bytes := bs
        entries := (parsed_records 0
            ((arch_ann (writer_of_tuples id [([], [1], false)])).map toc_chunk)).map
          (resolve_name (build_name_table (writer_of_tuples id [([], [1], false)])).1)
        name_table := (build_name_table (writer_of_tuples id [([], [1], false)])).1 } [] =
      .error .notFound := by
    refine extract_notFound _ _ _ ?_
    intro pe hpe
    obtain ⟨x, _, rfl⟩ := List.mem_map.mp hpe
    exact resolve_name_ne_nil _ x
  have hrt : round_trip id (fun _ => none) [([], [1], false)] [] = none := by
    unfold round_trip
    rw [hw]
    show (match parse_rpf6_structure bs with
      | .error _ => none
      | .ok a =>
        match extract_file (fun _ => none) a [] with
        | .error _ => none
        | .ok d => some d) = none
    rw [hparse]
    show (match extract_file (fun _ => none)
        { file_bytes := bs
          entries := (parsed_records 0
              ((arch_ann (writer_of_tuples id [([], [1], false)])).map toc_chunk)).map
            (resolve_name (build_name_table (writer_of_tuples id [([], [1], false)])).1)
          name_table := (build_name_table (writer_of_tuples id [([], [1], false)])).1 } [] with
      | .error _ => none
      | .ok d => some d) = none
    rw [hex]
  refine ⟨hrt, by rw [hrt]; simp, by rw [hw]; rfl⟩

def c1_compress : Bytes → Bytes := fun d => 0 :: d

def c1_inflate : Bytes → Option Bytes := fun l =>
  match l with
  | 0 :: d => some d
  | _ => none

def c1_tuples : List (List Nat × Bytes × Bool) := [([97], [1, 2], false), ([98], [3], true)]

theorem archive_round_trip_amended_witness :
    (∀ x, c1_compress x ≠ []) ∧ (∀ x, c1_inflate (c1_compress x) = some x) ∧
      (∀ t ∈ c1_tuples, wf_path t.1) ∧ (∀ t ∈ c1_tuples, t.2.1 ≠ []) ∧
      (∀ t ∈ c1_tuples, t.2.1.length < 2 ^ 32) ∧
      (c1_tuples.map (fun t => t.1)).Nodup ∧
      estimate_archive_size (writer_of_tuples c1_compress c1_tuples) < 2 ^ 32 ∧
      ([97], ([1, 2], false)) ∈ c1_tuples ∧
      round_trip c1_compress c1_inflate c1_tuples [97] = some [1, 2] := by
  refine ⟨fun x => List.cons_ne_nil 0 x, fun x => rfl, by decide, by decide, by decide,
    by decide, by decide, by decide, ?_⟩
  exact archive_round_trip_amended c1_compress c1_inflate c1_tuples
    (fun x => List.cons_ne_nil 0 x) (fun x => rfl) (by decide) (by decide) (by decide)
    (by decide) (by decide) ([97], ([1, 2], false)) (by decide)

/-- C10: after two `add_file_data` calls with the same path and no intervening
removal, the writer retains two entries with that name, every finalized TOC
record for that state carries the same name-table offset, and extraction from
the written archive returns the content of the earlier-added entry. -/
theorem duplicate_path_first_wins (compress : Bytes → Bytes) (inflate : Bytes → Option Bytes)
    (p : List Nat) (d1 d2 : Bytes) (c1 c2 : Bool)
    (hcne : ∀ x, compress x ≠ []) (hinfl : ∀ x, inflate (compress x) = some x)
    (hwfp : wf_path p) (hd1 : d1 ≠ [])
    (hl1 : d1.length < 2 ^ 32) (hl2 : d2.length < 2 ^ 32)
    (hest : estimate_archive_size
      (add_file_data compress (add_file_data compress [] d1 p c1) d2 p c2) < 2 ^ 32) :
    (add_file_data compress (add_file_data compress [] d1 p c1) d2 p c2).length = 2 ∧
      (∀ e ∈ add_file_data compress (add_file_data compress [] d1 p c1) d2 p c2,
        e.name = p) ∧
      (∀ t1 ∈ arch_ann (add_file_data compress (add_file_data compress [] d1 p c1) d2 p c2),
       ∀ t2 ∈ arch_ann (add_file_data compress (add_file_data compress [] d1 p c1) d2 p c2),
        t1.name_offset = t2.name_offset) ∧
      ∃ bs a,
        write_archive (add_file_data compress (add_file_data compress [] d1 p c1) d2 p c2)
          = some bs ∧ parse_rpf6_structure bs = .ok a ∧
        extract_file inflate a p = .ok d1 := by
  have hes : add_file_data compress (add_file_data compress [] d1 p c1) d2 p c2 =
      writer_of_tuples compress [(p, (d1, c1)), (p, (d2, c2))] := rfl
  have hmap := writer_of_tuples_eq compress [(p, (d1, c1)), (p, (d2, c2))]
  have hname : ∀ e ∈ add_file_data compress (add_file_data compress [] d1 p c1) d2 p c2,
      e.name = p := by
    intro e he
    rw [hes, hmap] at he
    rcases List.mem_cons.mp he with rfl | he
    · rfl
    · obtain rfl : e = _ := List.mem_singleton.mp he
      rfl
  refine ⟨by rw [hes, hmap]; rfl, hname, ?_, ?_⟩
  · intro t1 ht1 t2 ht2
    obtain ⟨e1, off1, he1, _, rfl⟩ := mem_zipWith ht1
    obtain ⟨e2, off2, he2, _, rfl⟩ := mem_zipWith ht2
    show (alookup e1.name _).getD 0 = (alookup e2.name _).getD 0
    rw [hname e1 he1, hname e2 he2]
  · rw [hes, hmap]
    have hpay : entries_payload_ok
        ([(p, (d1, c1)), (p, (d2, c2))].map (tuple_entry compress)) := by
      intro e he
      obtain ⟨t, _, rfl⟩ := List.mem_map.mp he
      simp [tuple_entry]
    have hrt : ∀ e ∈ [(p, (d1, c1)), (p, (d2, c2))].map (tuple_entry compress),
        e.resource_type = 0 := by
      intro e he
      obtain ⟨t, _, rfl⟩ := List.mem_map.mp he
      rfl
    have hwfE : ∀ e ∈ [(p, (d1, c1)), (p, (d2, c2))].map (tuple_entry compress),
        wf_path e.name := by
      intro e he
      obtain ⟨t, ht, rfl⟩ := List.mem_map.mp he
      rcases List.mem_cons.mp ht with rfl | ht
      · exact hwfp
      · obtain rfl : t = _ := List.mem_singleton.mp ht
        exact hwfp
    have husz : ∀ e ∈ [(p, (d1, c1)), (p, (d2, c2))].map (tuple_entry compress),
        e.uncompressed_size < 2 ^ 32 := by
      intro e he
      obtain ⟨t, ht, rfl⟩ := List.mem_map.mp he
      rcases List.mem_cons.mp ht with rfl | ht
      · exact hl1
      · obtain rfl : t = _ := List.mem_singleton.mp ht
        exact hl2
    have hestE : estimate_archive_size
        ([(p, (d1, c1)), (p, (d2, c2))].map (tuple_entry compress)) < 2 ^ 32 := by
      rw [hes, hmap] at hest
      exact hest
    have hpdne : 0 < (tuple_entry compress (p, (d1, c1))).data_size := by
      show 0 < (if c1 then compress d1 else d1).length
      cases c1 with
      | true => simpa using List.length_pos.mpr (hcne d1)
      | false => simpa using List.length_pos.mpr hd1
    obtain ⟨bs, a, hw, hparse, hextract⟩ := extract_write_first inflate
      ([(p, (d1, c1)), (p, (d2, c2))].map (tuple_entry compress)) hpay hrt hwfE husz hestE 0
      (tuple_entry compress (p, (d1, c1))) (if c1 then compress d1 else d1) rfl rfl rfl
      hpdne (fun j hj => absurd hj (Nat.not_lt_zero j))
    have hres : (if (tuple_entry compress (p, (d1, c1))).is_compressed then
        decompress inflate (if c1 then compress d1 else d1)
          (tuple_entry compress (p, (d1, c1))).uncompressed_size
        else (if c1 then compress d1 else d1)) = d1 := by
      show (if c1 then decompress inflate (if c1 then compress d1 else d1) d1.length
        else (if c1 then compress d1 else d1)) = d1
      cases c1 with
      | true =>
        simp only [if_pos rfl]
        exact decompress_roundtrip compress inflate hcne hinfl d1
      | false => simp
    rw [hres] at hextract
    exact ⟨bs, a, hw, hparse, hextract⟩

theorem packU32_some_inv {v : Nat} {r : Bytes} (h : packU32 v = some r) : v < 2 ^ 32 := by
  by_contra hc
  unfold packU32 at h
  rw [if_neg hc] at h
  cases h

theorem toc_record_some_inv {t : TocEntry} {r : Bytes} (h : toc_record t = some r) :
    toc_bounds t ∧ r = toc_chunk t := by
  cases h1 : packU32 t.name_offset with
  | none => unfold toc_record at h; rw [h1] at h; cases h
  | some a =>
    cases h2 : packU32 t.data_size with
    | none => unfold toc_record at h; rw [h1, h2] at h; cases h
    | some b =>
      cases h3 : packU24slice t.data_offset with
      | none => unfold toc_record at h; rw [h1, h2, h3] at h; cases h
      | some c =>
        cases h4 : packU32 t.uncompressed_size with
        | none => unfold toc_record at h; rw [h1, h2, h3, h4] at h; cases h
        | some d =>
          have hb : toc_bounds t := by
            refine ⟨packU32_some_inv h1, packU32_some_inv h2, ?_, packU32_some_inv h4⟩
            by_contra hc
            unfold packU24slice at h3
            rw [if_neg hc] at h3
            cases h3
          refine ⟨hb, ?_⟩
          have := toc_record_eq hb
          rw [h] at this
          exact Option.some.inj this

theorem pack_header_some_inv {n nl : Nat} {r : Bytes} (h : pack_header n nl = some r) :
    n * 16 < 2 ^ 32 ∧ n < 2 ^ 32 ∧ nl < 2 ^ 32 ∧ r = header_chunk n nl := by
  cases h1 : packU32 (n * 16) with
  | none =>
    unfold pack_header at h
    rw [packU32_eq (by norm_num), h1] at h
    cases h
  | some a =>
    cases h2 : packU32 n with
    | none =>
      unfold pack_header at h
      rw [packU32_eq (by norm_num), h1, h2] at h
      cases h
    | some b =>
      cases h3 : packU32 nl with
      | none =>
        unfold pack_header at h
        rw [packU32_eq (by norm_num), h1, h2, h3] at h
        cases h
      | some c =>
        have hb1 := packU32_some_inv h1
        have hb2 := packU32_some_inv h2
        have hb3 := packU32_some_inv h3
        refine ⟨hb1, hb2, hb3, ?_⟩
        have := pack_header_eq hb1 hb2 hb3
        rw [h] at this
        exact Option.some.inj this

theorem mapM_some_length {α β : Type} (f : α → Option β) :
    ∀ (l : List α) (r : List β), l.mapM f = some r → r.length = l.length := by
  intro l
  induction l with
  | nil =>
    intro r h
    obtain rfl : [] = r := Option.some.inj h
    rfl
  | cons x xs ih =>
    intro r h
    rw [List.mapM_cons] at h
    cases hx : f x with
    | none => rw [hx] at h; cases h
    | some y =>
      rw [hx] at h
      cases hxs : xs.mapM f with
      | none => rw [hxs] at h; cases h
      | some ys =>
        rw [hxs] at h
        obtain rfl : y :: ys = r := Option.some.inj h
        simp [ih ys hxs]

theorem mapM_some_mem {α β : Type} (f : α → Option β) :
    ∀ (l : List α) (r : List β), l.mapM f = some r → ∀ x ∈ l, ∃ y, f x = some y := by
  intro l
  induction l with
  | nil => intro r _ x hx; cases hx
  | cons a xs ih =>
    intro r h x hx
    rw [List.mapM_cons] at h
    cases ha : f a with
    | none => rw [ha] at h; cases h
    | some y =>
      rw [ha] at h
      cases hxs : xs.mapM f with
      | none => rw [hxs] at h; cases h
      | some ys =>
        rcases List.mem_cons.mp hx with rfl | hx
        · exact ⟨y, ha⟩
        · exact ih ys hxs x hx

/-- Inversion of a successful `write_archive`: the archive necessarily has the
    serialized shape, with every per-field pack within bounds. -/
theorem write_archive_some_inv (es : List WEntry) (bs : Bytes)
    (h : write_archive es = some bs) :
    ∃ toc, (arch_ann es).mapM toc_record = some toc ∧
      es.length * 16 < 2 ^ 32 ∧ es.length < 2 ^ 32 ∧
      (build_name_table es).1.length < 2 ^ 32 ∧
      bs = ((header_chunk es.length (build_name_table es).1.length ++
          (toc.flatten ++ (build_name_table es).1)) ++
        List.replicate (alignUp (header_chunk es.length (build_name_table es).1.length ++
            (toc.flatten ++ (build_name_table es).1)).length 2048 -
          (header_chunk es.length (build_name_table es).1.length ++
            (toc.flatten ++ (build_name_table es).1)).length) 0) ++
        write_data (arch_ann es)
          ((header_chunk es.length (build_name_table es).1.length ++
              (toc.flatten ++ (build_name_table es).1)) ++
            List.replicate (alignUp (header_chunk es.length (build_name_table es).1.length ++
                (toc.flatten ++ (build_name_table es).1)).length 2048 -
              (header_chunk es.length (build_name_table es).1.length ++
                (toc.flatten ++ (build_name_table es).1)).length) 0).length := by
  have hlookup : ∀ e ∈ es, (alookup e.name (build_name_table es).2).isSome := by
    intro e he
    obtain ⟨v, hv⟩ := build_name_table_lookup es e he
    simp [hv]
  have hofflen : (calc_data_offsets es (build_name_table es).1.length).length = es.length := by
    unfold calc_data_offsets
    exact offsets_walk_length es _
  have hann := annotate_eq (build_name_table es).2 es _ hlookup hofflen
  have hann_eq : List.zipWith (toc_of (build_name_table es).2) es
      (calc_data_offsets es (build_name_table es).1.length) = arch_ann es := rfl
  rw [hann_eq] at hann
  simp only [write_archive] at h
  rw [hann] at h
  simp only [Option.bind_eq_bind, Option.some_bind] at h
  cases hh : pack_header es.length (build_name_table es).1.length with
  | none => rw [hh] at h; cases h
  | some hdr =>
    rw [hh] at h
    simp only [Option.some_bind] at h
    cases ht : (arch_ann es).mapM toc_record with
    | none => rw [ht] at h; cases h
    | some toc =>
      rw [ht] at h
      simp only [Option.some_bind] at h
      obtain ⟨hb1, hb2, hb3, rfl⟩ := pack_header_some_inv hh
      exact ⟨toc, rfl, hb1, hb2, hb3, (Option.some.inj h).symm⟩

theorem mapM_some_mem_rev {α β : Type} (f : α → Option β) :
    ∀ (l : List α) (r : List β), l.mapM f = some r → ∀ y ∈ r, ∃ x ∈ l, f x = some y := by
  intro l
  induction l with
  | nil =>
    intro r h y hy
    obtain rfl : [] = r := Option.some.inj h
    cases hy
  | cons a xs ih =>
    intro r h y hy
    rw [List.mapM_cons] at h
    cases ha : f a with
    | none => rw [ha] at h; cases h
    | some b =>
      rw [ha] at h
      cases hxs : xs.mapM f with
      | none => rw [hxs] at h; cases h
      | some ys =>
        rw [hxs] at h
        obtain rfl : b :: ys = r := Option.some.inj h
        rcases List.mem_cons.mp hy with rfl | hy
        · exact ⟨a, List.mem_cons_self a xs, ha⟩
        · obtain ⟨x, hx, hfx⟩ := ih ys hxs y hy
          exact ⟨x, List.mem_cons_of_mem a hx, hfx⟩

theorem flatten_length_const {l : List Bytes} (h : ∀ x ∈ l, x.length = 16) :
    l.flatten.length = 16 * l.length := by
  induction l with
  | nil => rfl
  | cons a rest ih =>
    simp only [List.flatten_cons, List.length_append, List.length_cons,
      h a (List.mem_cons_self a rest), ih (fun x hx => h x (List.mem_cons_of_mem a hx))]
    ring

theorem offsets_walk_get?_dir (es : List WEntry) :
    ∀ cur i e, es.get? i = some e → e.is_directory = true →
      (offsets_walk es cur).get? i = some 0 := by
  induction es with
  | nil => intro cur i e hi; cases hi
  | cons x xs ih =>
    intro cur i e hi hd
    cases i with
    | zero =>
      obtain rfl : x = e := Option.some.inj hi
      unfold offsets_walk
      rw [if_pos hd]
      rfl
    | succ j =>
      unfold offsets_walk
      cases hx : x.is_directory with
      | true =>
        rw [if_pos rfl]
        exact ih cur j e hi hd
      | false =>
        rw [if_neg Bool.false_ne_true]
        exact ih _ j e hi hd

/-- The full layout invariant of a successfully written archive over a writer
    state whose payloads are wellformed. -/
theorem alignment_layout (es : List WEntry) (bs : Bytes)
    (hpay : entries_payload_ok es) (h : write_archive es = some bs) :
    calc_data_offsets es (build_name_table es).1.length =
      offsets_walk es (alignUp (24 + es.length * 16 + (build_name_table es).1.length) 2048) ∧
    bs.length = arch_data_start es + sum_aligned es ∧
    ∀ i e, es.get? i = some e →
      ∃ t off, (arch_ann es).get? i = some t ∧
        (calc_data_offsets es (build_name_table es).1.length).get? i = some off ∧
        (e.is_directory = true → t.data_offset = 0 ∧ off = 0) ∧
        (e.is_directory = false →
          t.data_offset * 2048 = off ∧ off % 2048 = 0 ∧
          off + e.data_size ≤ bs.length) := by
  obtain ⟨toc, htoc, hb1, hb2, hb3, hbs⟩ := write_archive_some_inv es bs h
  have hrlen : ∀ r ∈ toc, r.length = 16 := by
    intro r hr
    obtain ⟨t, _, hft⟩ := mapM_some_mem_rev toc_record (arch_ann es) toc htoc r hr
    rw [(toc_record_some_inv hft).2]
    exact toc_chunk_length t
  have hflat : toc.flatten.length = 16 * toc.length := flatten_length_const hrlen
  have htl : toc.length = es.length := by
    rw [mapM_some_length toc_record (arch_ann es) toc htoc, arch_ann_length]
  have hprelen : (header_chunk es.length (build_name_table es).1.length ++
      (toc.flatten ++ (build_name_table es).1)).length =
      24 + es.length * 16 + (build_name_table es).1.length := by
    simp only [List.length_append, header_chunk_length, hflat, htl]
    ring
  have hbodylen : ((header_chunk es.length (build_name_table es).1.length ++
      (toc.flatten ++ (build_name_table es).1)) ++
      List.replicate (alignUp (header_chunk es.length (build_name_table es).1.length ++
          (toc.flatten ++ (build_name_table es).1)).length 2048 -
        (header_chunk es.length (build_name_table es).1.length ++
          (toc.flatten ++ (build_name_table es).1)).length) 0).length =
      arch_data_start es := by
    rw [List.length_append, List.length_replicate, hprelen]
    have hle := alignUp_le (24 + es.length * 16 + (build_name_table es).1.length)
    unfold arch_data_start
    omega
  have hlay := data_section_layout (build_name_table es).2 es (arch_data_start es)
    (alignUp_mod _) hpay
  have harch : List.zipWith (toc_of (build_name_table es).2) es
      (offsets_walk es (arch_data_start es)) = arch_ann es := rfl
  rw [harch] at hlay
  obtain ⟨hlaylen, hlayslice⟩ := hlay
  have hofflen : (calc_data_offsets es (build_name_table es).1.length).length = es.length := by
    unfold calc_data_offsets
    exact offsets_walk_length es _
  have hbslen : bs.length = arch_data_start es + sum_aligned es := by
    rw [hbs, List.length_append, hbodylen, hlaylen]
  refine ⟨rfl, hbslen, ?_⟩
  intro i e hi
  have hilt : i < es.length := by
    by_contra hc
    rw [List.get?_eq_none.mpr (by omega)] at hi
    cases hi
  obtain ⟨off, hoff⟩ : ∃ off,
      (calc_data_offsets es (build_name_table es).1.length).get? i = some off := by
    have : i < (calc_data_offsets es (build_name_table es).1.length).length := by omega
    exact ⟨_, List.get?_eq_get this⟩
  have hann : (arch_ann es).get? i = some (toc_of (build_name_table es).2 e off) :=
    zipWith_get? _ es _ i e off hi hoff
  refine ⟨toc_of (build_name_table es).2 e off, off, hann, hoff, ?_, ?_⟩
  · intro hd
    have hzero : (offsets_walk es (arch_data_start es)).get? i = some 0 :=
      offsets_walk_get?_dir es (arch_data_start es) i e hi hd
    have hzero' : (calc_data_offsets es (build_name_table es).1.length).get? i = some 0 := hzero
    rw [hoff] at hzero'
    obtain rfl : off = 0 := Option.some.inj hzero'
    exact ⟨rfl, rfl⟩
  · intro hd
    obtain ⟨off', pd, hoff', hpd, hle, hmod, hbound, _⟩ := hlayslice i e hi hd
    have hoff'' : (calc_data_offsets es (build_name_table es).1.length).get? i = some off' :=
      hoff'
    rw [hoff] at hoff''
    obtain rfl : off = off' := Option.some.inj hoff''
    refine ⟨?_, hmod, ?_⟩
    · show off / 2048 * 2048 = off
      exact Nat.div_mul_cancel (Nat.dvd_of_mod_eq_zero hmod)
    · have halign := alignUp_le e.data_size
      omega

/-- C4: every archive successfully produced by `write_archive` from a writer
    state reachable through the accumulation API satisfies the data-layout
    invariant: offsets are assigned by the insertion-order walk starting at the
    2048-aligned data start, directories get offset 0, and every file entry's
    byte offset is a multiple of 2048 with `offset + dataSize` within the
    archive size. -/
theorem alignment_invariant (compress : Bytes → Bytes) (ops : List WriterOp) (bs : Bytes)
    (h : write_archive (build_writer compress ops) = some bs) :
    calc_data_offsets (build_writer compress ops)
        (build_name_table (build_writer compress ops)).1.length =
      offsets_walk (build_writer compress ops)
        (alignUp (24 + (build_writer compress ops).length * 16 +
          (build_name_table (build_writer compress ops)).1.length) 2048) ∧
    bs.length = arch_data_start (build_writer compress ops) +
      sum_aligned (build_writer compress ops) ∧
    ∀ i e, (build_writer compress ops).get? i = some e →
      ∃ t off, (arch_ann (build_writer compress ops)).get? i = some t ∧
        (calc_data_offsets (build_writer compress ops)
            (build_name_table (build_writer compress ops)).1.length).get? i = some off ∧
        (e.is_directory = true → t.data_offset = 0 ∧ off = 0) ∧
        (e.is_directory = false →
          t.data_offset * 2048 = off ∧ off % 2048 = 0 ∧
          off + e.data_size ≤ bs.length) :=
  alignment_layout (build_writer compress ops) bs (build_writer_payload_ok compress ops) h

/-- C4 witness: the invariant instantiated on a concrete one-file writer. -/
theorem alignment_invariant_witness :
    ∃ bs, write_archive (build_writer c1_compress [.file [1] [97] false]) = some bs ∧
      (calc_data_offsets (build_writer c1_compress [.file [1] [97] false])
          (build_name_table (build_writer c1_compress [.file [1] [97] false])).1.length =
        offsets_walk (build_writer c1_compress [.file [1] [97] false])
          (alignUp (24 + (build_writer c1_compress [.file [1] [97] false]).length * 16 +
            (build_name_table (build_writer c1_compress [.file [1] [97] false])).1.length) 2048) ∧
      bs.length = arch_data_start (build_writer c1_compress [.file [1] [97] false]) +
        sum_aligned (build_writer c1_compress [.file [1] [97] false]) ∧
      ∀ i e, (build_writer c1_compress [.file [1] [97] false]).get? i = some e →
        ∃ t off, (arch_ann (build_writer c1_compress [.file [1] [97] false])).get? i = some t ∧
          (calc_data_offsets (build_writer c1_compress [.file [1] [97] false])
              (build_name_table (build_writer c1_compress
                [.file [1] [97] false])).1.length).get? i = some off ∧
          (e.is_directory = true → t.data_offset = 0 ∧ off = 0) ∧
          (e.is_directory = false →
            t.data_offset * 2048 = off ∧ off % 2048 = 0 ∧
            off + e.data_size ≤ bs.length)) := by
  have hbs := write_archive_eq (build_writer c1_compress [.file [1] [97] false])
    (by decide) (by decide) (by decide)
  exact ⟨_, hbs, alignment_invariant c1_compress [.file [1] [97] false] _ hbs⟩

theorem arch_ann_get? (es : List WEntry) (i : Nat) (e : WEntry) (hi : es.get? i = some e) :
    ∃ off, (calc_data_offsets es (build_name_table es).1.length).get? i = some off ∧
      (arch_ann es).get? i = some (toc_of (build_name_table es).2 e off) := by
  have hilt : i < es.length := by
    by_contra hc
    rw [List.get?_eq_none.mpr (by omega)] at hi
    cases hi
  have hofflen : (calc_data_offsets es (build_name_table es).1.length).length = es.length := by
    unfold calc_data_offsets
    exact offsets_walk_length es _
  obtain ⟨off, hoff⟩ : ∃ off,
      (calc_data_offsets es (build_name_table es).1.length).get? i = some off :=
    ⟨_, List.get?_eq_get (by omega)⟩
  exact ⟨off, hoff, zipWith_get? _ es _ i e off hi hoff⟩

/-- C5: in every archive successfully produced by `write_archive`, the name
    table is the concatenation of the null-terminated encodings of the distinct
    entry names, each stored exactly once; every TOC record's name offset is the
    recorded offset of its entry's name, which points at that single stored
    null-terminated copy, and entries with equal names share one name offset. -/
theorem name_table_uniqueness (compress : Bytes → Bytes) (ops : List WriterOp) (bs : Bytes)
    (h : write_archive (build_writer compress ops) = some bs) :
    (build_name_table (build_writer compress ops)).1 =
      ((build_name_table (build_writer compress ops)).2.map Prod.fst).flatMap
        (fun nm => encodeAscii nm ++ [0]) ∧
    ((build_name_table (build_writer compress ops)).2.map Prod.fst).Nodup ∧
    (∀ k, k ∈ (build_name_table (build_writer compress ops)).2.map Prod.fst ↔
      k ∈ (build_writer compress ops).map (fun e => e.name)) ∧
    (∀ i e, (build_writer compress ops).get? i = some e →
      ∃ t off, (arch_ann (build_writer compress ops)).get? i = some t ∧
        alookup e.name (build_name_table (build_writer compress ops)).2 = some off ∧
        t.name_offset = off ∧
        off + (encodeAscii e.name).length + 1 ≤
          (build_name_table (build_writer compress ops)).1.length ∧
        ((build_name_table (build_writer compress ops)).1.drop off).take
          ((encodeAscii e.name).length + 1) = encodeAscii e.name ++ [0]) ∧
    ∀ i j e f t u, (build_writer compress ops).get? i = some e →
      (build_writer compress ops).get? j = some f → e.name = f.name →
      (arch_ann (build_writer compress ops)).get? i = some t →
      (arch_ann (build_writer compress ops)).get? j = some u →
      t.name_offset = u.name_offset := by
  obtain ⟨hstruct1, hstruct2⟩ := build_name_table_struct (build_writer compress ops)
  refine ⟨hstruct1, hstruct2, fun k => build_name_table_keys _ k, ?_, ?_⟩
  · intro i e hi
    obtain ⟨offi, hoffi, hti⟩ := arch_ann_get? _ i e hi
    obtain ⟨off, hoff⟩ := build_name_table_lookup _ e (List.get?_mem hi)
    obtain ⟨hle, hslice⟩ := build_name_table_inv _ e.name off hoff
    refine ⟨toc_of (build_name_table (build_writer compress ops)).2 e offi, off, hti, hoff,
      ?_, hle, hslice⟩
    simp [toc_of, hoff]
  · intro i j e f t u hi hj hname ht hu
    obtain ⟨offi, hoffi, hti⟩ := arch_ann_get? _ i e hi
    obtain ⟨offj, hoffj, htj⟩ := arch_ann_get? _ j f hj
    rw [hti] at ht
    rw [htj] at hu
    obtain rfl : toc_of (build_name_table (build_writer compress ops)).2 e offi = t :=
      Option.some.inj ht
    obtain rfl : toc_of (build_name_table (build_writer compress ops)).2 f offj = u :=
      Option.some.inj hu
    show (alookup e.name (build_name_table (build_writer compress ops)).2).getD 0 =
      (alookup f.name (build_name_table (build_writer compress ops)).2).getD 0
    rw [hname]

/-- C5 witness: the name-table invariant instantiated on a concrete writer with
    two entries sharing one name. -/
theorem name_table_uniqueness_witness :
    ∃ bs, write_archive (build_writer c1_compress
        [.file [1] [98] false, .file [2, 3] [98] true]) = some bs ∧
      ((build_name_table (build_writer c1_compress
          [.file [1] [98] false, .file [2, 3] [98] true])).1 =
        ((build_name_table (build_writer c1_compress
            [.file [1] [98] false, .file [2, 3] [98] true])).2.map Prod.fst).flatMap
          (fun nm => encodeAscii nm ++ [0]) ∧
      ((build_name_table (build_writer c1_compress
          [.file [1] [98] false, .file [2, 3] [98] true])).2.map Prod.fst).Nodup ∧
      (∀ k, k ∈ (build_name_table (build_writer c1_compress
            [.file [1] [98] false, .file [2, 3] [98] true])).2.map Prod.fst ↔
        k ∈ (build_writer c1_compress
            [.file [1] [98] false, .file [2, 3] [98] true]).map (fun e => e.name)) ∧
      (∀ i e, (build_writer c1_compress
            [.file [1] [98] false, .file [2, 3] [98] true]).get? i = some e →
        ∃ t off, (arch_ann (build_writer c1_compress
              [.file [1] [98] false, .file [2, 3] [98] true])).get? i = some t ∧
          alookup e.name (build_name_table (build_writer c1_compress
              [.file [1] [98] false, .file [2, 3] [98] true])).2 = some off ∧
          t.name_offset = off ∧
          off + (encodeAscii e.name).length + 1 ≤
            (build_name_table (build_writer c1_compress
              [.file [1] [98] false, .file [2, 3] [98] true])).1.length ∧
          ((build_name_table (build_writer c1_compress
              [.file [1] [98] false, .file [2, 3] [98] true])).1.drop off).take
            ((encodeAscii e.name).length + 1) = encodeAscii e.name ++ [0]) ∧
      ∀ i j e f t u, (build_writer c1_compress
          [.file [1] [98] false, .file [2, 3] [98] true]).get? i = some e →
        (build_writer c1_compress
          [.file [1] [98] false, .file [2, 3] [98] true]).get? j = some f →
        e.name = f.name →
        (arch_ann (build_writer c1_compress
          [.file [1] [98] false, .file [2, 3] [98] true])).get? i = some t →
        (arch_ann (build_writer c1_compress
          [.file [1] [98] false, .file [2, 3] [98] true])).get? j = some u →
        t.name_offset = u.name_offset) := by
  have hbs := write_archive_eq (build_writer c1_compress
      [.file [1] [98] false, .file [2, 3] [98] true])
    (by decide) (by decide) (by decide)
  exact ⟨_, hbs, name_table_uniqueness c1_compress
    [.file [1] [98] false, .file [2, 3] [98] true] _ hbs⟩

/-- C10 witness: the duplicate-path behaviour instantiated at path "a" with
    payloads [1] (stored raw, added first) and [2, 3] (compressed, added
    second). -/
theorem duplicate_path_first_wins_witness :
    (add_file_data c1_compress (add_file_data c1_compress [] [1] [97] false)
        [2, 3] [97] true).length = 2 ∧
      (∀ e ∈ add_file_data c1_compress (add_file_data c1_compress [] [1] [97] false)
          [2, 3] [97] true, e.name = [97]) ∧
      (∀ t1 ∈ arch_ann (add_file_data c1_compress
          (add_file_data c1_compress [] [1] [97] false) [2, 3] [97] true),
       ∀ t2 ∈ arch_ann (add_file_data c1_compress
          (add_file_data c1_compress [] [1] [97] false) [2, 3] [97] true),
        t1.name_offset = t2.name_offset) ∧
      ∃ bs a,
        write_archive (add_file_data c1_compress
            (add_file_data c1_compress [] [1] [97] false) [2, 3] [97] true) = some bs ∧
        parse_rpf6_structure bs = .ok a ∧
        extract_file c1_inflate a [97] = .ok [1] :=
  duplicate_path_first_wins c1_compress c1_inflate [97] [1] [2, 3] false true
    (fun x => List.cons_ne_nil 0 x) (fun x => rfl) (by decide) (by decide) (by decide)
    (by decide) (by decide)

/-- C2: the spec requires the patcher to preserve untouched entries by lazily
    pulling carried-over payloads from the source archive at serialization
    time; `RPF6Modifier` inherits `write_archive` unchanged, and
    `load_existing_archive` stores no payload, so the inherited data pass
    silently skips every carried-over entry while the TOC still advances the
    offsets.  Patching only "B" of a baseline "A","B","C" archive yields an
    archive in which "A" extracts to the replacement bytes and "B" and "C"
    are out of range. -/
theorem modifier_drops_carried_entries (inflate : Bytes → Option Bytes) :
    ∃ bsB aB bsM aM,
      write_archive (writer_of_tuples id
        [([65], ([1], false)), ([66], ([2], false)), ([67], ([3], false))]) = some bsB ∧
      parse_rpf6_structure bsB = .ok aB ∧
      extract_file inflate aB [65] = .ok [1] ∧
      extract_file inflate aB [66] = .ok [2] ∧
      extract_file inflate aB [67] = .ok [3] ∧
      write_archive (replace_file_data id (load_existing_archive aB) [66] [9] false) =
        some bsM ∧
      parse_rpf6_structure bsM = .ok aM ∧
      extract_file inflate aM [65] = .ok [9] ∧
      extract_file inflate aM [66] = .error .outOfRange ∧
      extract_file inflate aM [67] = .error .outOfRange := by
  have hesB : writer_of_tuples id
      [([65], ([1], false)), ([66], ([2], false)), ([67], ([3], false))] =
      [⟨[65], 1, 1, false, false, 0, some [1]⟩, ⟨[66], 1, 1, false, false, 0, some [2]⟩,
        ⟨[67], 1, 1, false, false, 0, some [3]⟩] := by decide
  rw [hesB]
  have hpayB : entries_payload_ok
      [⟨[65], 1, 1, false, false, 0, some [1]⟩, ⟨[66], 1, 1, false, false, 0, some [2]⟩,
        ⟨[67], 1, 1, false, false, 0, some [3]⟩] := by
    intro e he
    fin_cases he
    · exact ⟨[1], rfl, rfl⟩
    · exact ⟨[2], rfl, rfl⟩
    · exact ⟨[3], rfl, rfl⟩
  obtain ⟨bsB, hwB, hblenB, hparseB, hrestB⟩ := parse_write_archive
    [⟨[65], 1, 1, false, false, 0, some [1]⟩, ⟨[66], 1, 1, false, false, 0, some [2]⟩,
      ⟨[67], 1, 1, false, false, 0, some [3]⟩] (by decide) (by decide) (by decide)
  obtain ⟨bs1, a1, hw1, hp1, he1⟩ := extract_write_first inflate
    [⟨[65], 1, 1, false, false, 0, some [1]⟩, ⟨[66], 1, 1, false, false, 0, some [2]⟩,
      ⟨[67], 1, 1, false, false, 0, some [3]⟩] hpayB (by decide) (by decide) (by decide)
    (by decide) 0 ⟨[65], 1, 1, false, false, 0, some [1]⟩ [1] (by decide) rfl rfl
    (by decide) (fun j hj => absurd hj (Nat.not_lt_zero j))
  obtain ⟨bs2, a2, hw2, hp2, he2⟩ := extract_write_first inflate
    [⟨[65], 1, 1, false, false, 0, some [1]⟩, ⟨[66], 1, 1, false, false, 0, some [2]⟩,
      ⟨[67], 1, 1, false, false, 0, some [3]⟩] hpayB (by decide) (by decide) (by decide)
    (by decide) 1 ⟨[66], 1, 1, false, false, 0, some [2]⟩ [2] (by decide) rfl rfl
    (by decide) (by
      intro j hj e2 he2
      interval_cases j
      obtain rfl : _ = e2 := Option.some.inj he2
      decide)
  obtain ⟨bs3, a3, hw3, hp3, he3⟩ := extract_write_first inflate
    [⟨[65], 1, 1, false, false, 0, some [1]⟩, ⟨[66], 1, 1, false, false, 0, some [2]⟩,
      ⟨[67], 1, 1, false, false, 0, some [3]⟩] hpayB (by decide) (by decide) (by decide)
    (by decide) 2 ⟨[67], 1, 1, false, false, 0, some [3]⟩ [3] (by decide) rfl rfl
    (by decide) (by
      intro j hj e2 he2
      interval_cases j
      · obtain rfl : _ = e2 := Option.some.inj he2
        decide
      · obtain rfl : _ = e2 := Option.some.inj he2
        decide)
  rw [hwB] at hw1 hw2 hw3
  obtain rfl : bsB = bs1 := Option.some.inj hw1
  obtain rfl : bsB = bs2 := Option.some.inj hw2
  obtain rfl : bsB = bs3 := Option.some.inj hw3
  rw [hparseB] at hp1 hp2 hp3
  injection hp1 with ha1
  subst ha1
  injection hp2 with ha2
  subst ha2
  injection hp3 with ha3
  subst ha3
  have hload : replace_file_data id (load_existing_archive
      { file_bytes := bsB
        entries := (parsed_records 0 ((arch_ann
          [⟨[65], 1, 1, false, false, 0, some [1]⟩, ⟨[66], 1, 1, false, false, 0, some [2]⟩,
            ⟨[67], 1, 1, false, false, 0, some [3]⟩]).map toc_chunk)).map
          (resolve_name (build_name_table
            [⟨[65], 1, 1, false, false, 0, some [1]⟩, ⟨[66], 1, 1, false, false, 0, some [2]⟩,
              ⟨[67], 1, 1, false, false, 0, some [3]⟩]).1)
        name_table := (build_name_table
          [⟨[65], 1, 1, false, false, 0, some [1]⟩, ⟨[66], 1, 1, false, false, 0, some [2]⟩,
            ⟨[67], 1, 1, false, false, 0, some [3]⟩]).1 }) [66] [9] false =
      [⟨[65], 1, 1, false, false, 0, none⟩, ⟨[67], 1, 1, false, false, 0, none⟩,
        ⟨[66], 1, 1, false, false, 0, some [9]⟩] := by
    show replace_file_data id (load_existing_archive
      { file_bytes := []
        entries := (parsed_records 0 ((arch_ann
          [⟨[65], 1, 1, false, false, 0, some [1]⟩, ⟨[66], 1, 1, false, false, 0, some [2]⟩,
            ⟨[67], 1, 1, false, false, 0, some [3]⟩]).map toc_chunk)).map
          (resolve_name (build_name_table
            [⟨[65], 1, 1, false, false, 0, some [1]⟩, ⟨[66], 1, 1, false, false, 0, some [2]⟩,
              ⟨[67], 1, 1, false, false, 0, some [3]⟩]).1)
        name_table := (build_name_table
          [⟨[65], 1, 1, false, false, 0, some [1]⟩, ⟨[66], 1, 1, false, false, 0, some [2]⟩,
            ⟨[67], 1, 1, false, false, 0, some [3]⟩]).1 }) [66] [9] false =
      [⟨[65], 1, 1, false, false, 0, none⟩, ⟨[67], 1, 1, false, false, 0, none⟩,
        ⟨[66], 1, 1, false, false, 0, some [9]⟩]
    decide
  obtain ⟨bsM, hwM, hblenM, hparseM, _⟩ := parse_write_archive
    [⟨[65], 1, 1, false, false, 0, none⟩, ⟨[67], 1, 1, false, false, 0, none⟩,
      ⟨[66], 1, 1, false, false, 0, some [9]⟩] (by decide) (by decide) (by decide)
  have hannM : arch_ann
      [⟨[65], 1, 1, false, false, 0, none⟩, ⟨[67], 1, 1, false, false, 0, none⟩,
        ⟨[66], 1, 1, false, false, 0, some [9]⟩] =
      [⟨0, 1, 1, 0, 1, false, none⟩, ⟨4, 1, 2, 0, 1, false, none⟩,
        ⟨2, 1, 3, 0, 1, false, some [9]⟩] := by decide
  have hdsM : arch_data_start
      [⟨[65], 1, 1, false, false, 0, none⟩, ⟨[67], 1, 1, false, false, 0, none⟩,
        ⟨[66], 1, 1, false, false, 0, some [9]⟩] = 2048 := by decide
  have hwdM : write_data (arch_ann
      [⟨[65], 1, 1, false, false, 0, none⟩, ⟨[67], 1, 1, false, false, 0, none⟩,
        ⟨[66], 1, 1, false, false, 0, some [9]⟩]) (arch_data_start
      [⟨[65], 1, 1, false, false, 0, none⟩, ⟨[67], 1, 1, false, false, 0, none⟩,
        ⟨[66], 1, 1, false, false, 0, some [9]⟩]) = 9 :: List.replicate 2047 0 := by
    rw [hannM, hdsM, write_data_cons_skip _ 2048 (Or.inr rfl),
      write_data_cons_skip _ 2048 (Or.inr rfl), write_data_cons_payload _ 2048 rfl rfl]
    show 9 :: (List.replicate (alignUp (2048 + 1) 2048 - (2048 + 1)) 0 ++
      write_data [] (2048 + 1 + (alignUp (2048 + 1) 2048 - (2048 + 1)))) =
      9 :: List.replicate 2047 0
    rw [show write_data [] (2048 + 1 + (alignUp (2048 + 1) 2048 - (2048 + 1))) = [] from rfl,
      show alignUp (2048 + 1) 2048 - (2048 + 1) = 2047 from by decide, List.append_nil]
  have hlenM : bsM.length = 4096 := by
    rw [hblenM, hwdM, hdsM, List.length_cons, List.length_replicate]
  have hwEqM := write_archive_eq
    [⟨[65], 1, 1, false, false, 0, none⟩, ⟨[67], 1, 1, false, false, 0, none⟩,
      ⟨[66], 1, 1, false, false, 0, some [9]⟩] (by decide) (by decide) (by decide)
  rw [hwM] at hwEqM
  have hbseq := Option.some.inj hwEqM
  have hbodyM : ((header_chunk
      ([⟨[65], 1, 1, false, false, 0, none⟩, ⟨[67], 1, 1, false, false, 0, none⟩,
        (⟨[66], 1, 1, false, false, 0, some [9]⟩ : WEntry)] : List WEntry).length
      (build_name_table
        [⟨[65], 1, 1, false, false, 0, none⟩, ⟨[67], 1, 1, false, false, 0, none⟩,
          ⟨[66], 1, 1, false, false, 0, some [9]⟩]).1.length ++
      ((((arch_ann
        [⟨[65], 1, 1, false, false, 0, none⟩, ⟨[67], 1, 1, false, false, 0, none⟩,
          ⟨[66], 1, 1, false, false, 0, some [9]⟩]).map toc_chunk).flatten) ++
        (build_name_table
          [⟨[65], 1, 1, false, false, 0, none⟩, ⟨[67], 1, 1, false, false, 0, none⟩,
            ⟨[66], 1, 1, false, false, 0, some [9]⟩]).1)) ++
      List.replicate (arch_data_start
        [⟨[65], 1, 1, false, false, 0, none⟩, ⟨[67], 1, 1, false, false, 0, none⟩,
          ⟨[66], 1, 1, false, false, 0, some [9]⟩] -
        (24 + ([⟨[65], 1, 1, false, false, 0, none⟩, ⟨[67], 1, 1, false, false, 0, none⟩,
          (⟨[66], 1, 1, false, false, 0, some [9]⟩ : WEntry)] : List WEntry).length * 16 +
          (build_name_table
            [⟨[65], 1, 1, false, false, 0, none⟩, ⟨[67], 1, 1, false, false, 0, none⟩,
              ⟨[66], 1, 1, false, false, 0, some [9]⟩]).1.length)) 0).length = 2048 := by
    simp only [List.length_append, header_chunk_length, toc_flatten_length, arch_ann_length,
      List.length_replicate]
    decide
  have hsliceM : (bsM.drop 2048).take 1 = [9] := by
    rw [hbseq, drop_append_ge _ _ 2048 hbodyM.le, hbodyM, hwdM]
    rfl
  have hEM : (parsed_records 0 ((arch_ann
      [⟨[65], 1, 1, false, false, 0, none⟩, ⟨[67], 1, 1, false, false, 0, none⟩,
        ⟨[66], 1, 1, false, false, 0, some [9]⟩]).map toc_chunk)).map
      (resolve_name (build_name_table
        [⟨[65], 1, 1, false, false, 0, none⟩, ⟨[67], 1, 1, false, false, 0, none⟩,
          ⟨[66], 1, 1, false, false, 0, some [9]⟩]).1) =
      [⟨0, 0, 1, 1, 0, 1, [65], false, false, 0⟩, ⟨1, 4, 1, 2, 0, 1, [67], false, false, 0⟩,
        ⟨2, 2, 1, 3, 0, 1, [66], false, false, 0⟩] := by decide
  have hTM : (build_name_table
      [⟨[65], 1, 1, false, false, 0, none⟩, ⟨[67], 1, 1, false, false, 0, none⟩,
        ⟨[66], 1, 1, false, false, 0, some [9]⟩]).1 = [65, 0, 66, 0, 67, 0] := by decide
  rw [hEM, hTM] at hparseM
  have hfindA : ([⟨0, 0, 1, 1, 0, 1, [65], false, false, 0⟩,
      ⟨1, 4, 1, 2, 0, 1, [67], false, false, 0⟩,
      ⟨2, 2, 1, 3, 0, 1, [66], false, false, 0⟩] : List PEntry).find?
      (fun x => x.name == [65] && !x.is_directory) =
      some ⟨0, 0, 1, 1, 0, 1, [65], false, false, 0⟩ := by decide
  have hfindB : ([⟨0, 0, 1, 1, 0, 1, [65], false, false, 0⟩,
      ⟨1, 4, 1, 2, 0, 1, [67], false, false, 0⟩,
      ⟨2, 2, 1, 3, 0, 1, [66], false, false, 0⟩] : List PEntry).find?
      (fun x => x.name == [66] && !x.is_directory) =
      some ⟨2, 2, 1, 3, 0, 1, [66], false, false, 0⟩ := by decide
  have hfindC : ([⟨0, 0, 1, 1, 0, 1, [65], false, false, 0⟩,
      ⟨1, 4, 1, 2, 0, 1, [67], false, false, 0⟩,
      ⟨2, 2, 1, 3, 0, 1, [66], false, false, 0⟩] : List PEntry).find?
      (fun x => x.name == [67] && !x.is_directory) =
      some ⟨1, 4, 1, 2, 0, 1, [67], false, false, 0⟩ := by decide
  have heA : extract_file inflate
      { file_bytes := bsM
        entries := [⟨0, 0, 1, 1, 0, 1, [65], false, false, 0⟩,
          ⟨1, 4, 1, 2, 0, 1, [67], false, false, 0⟩,
          ⟨2, 2, 1, 3, 0, 1, [66], false, false, 0⟩]
        name_table := [65, 0, 66, 0, 67, 0] } [65] = .ok [9] := by
    simp only [extract_file, hfindA]
    rw [if_neg (by omega)]
    show Except.ok ((bsM.drop 2048).take 1) = Except.ok [9]
    rw [hsliceM]
  have heB : extract_file inflate
      { file_bytes := bsM
        entries := [⟨0, 0, 1, 1, 0, 1, [65], false, false, 0⟩,
          ⟨1, 4, 1, 2, 0, 1, [67], false, false, 0⟩,
          ⟨2, 2, 1, 3, 0, 1, [66], false, false, 0⟩]
        name_table := [65, 0, 66, 0, 67, 0] } [66] = .error .outOfRange := by
    simp only [extract_file, hfindB]
    rw [if_pos (by omega)]
  have heC : extract_file inflate
      { file_bytes := bsM
        entries := [⟨0, 0, 1, 1, 0, 1, [65], false, false, 0⟩,
          ⟨1, 4, 1, 2, 0, 1, [67], false, false, 0⟩,
          ⟨2, 2, 1, 3, 0, 1, [66], false, false, 0⟩]
        name_table := [65, 0, 66, 0, 67, 0] } [67] = .error .outOfRange := by
    simp only [extract_file, hfindC]
    rw [if_pos (by omega)]
  exact ⟨bsB, _, bsM, _, hwB, hparseB, he1, he2, he3, by rw [hload]; exact hwM, hparseM,
    heA, heB, heC⟩
